import Mathlib

/-!
# Hash-chained ledger of book checkouts (`main.go`)

A shallow embedding of the block / chain core of the program and the properties
proved about it.

* Go strings are byte sequences (`GoString`).
* `int` is the 64-bit two's-complement integer: a `Position` is an `Int` and the
  one addition of the program wraps (`addInt`).
* `*Block` values are addresses into a heap of blocks (`Heap`); a method with a
  pointer receiver takes the address and the heap and returns the new heap.
* `time.Now().String()` is an input of `CreateBlock` (the clock reading `now`).
* `log.Fatalf`, a nil dereference and an index out of range end the run with a
  `Fault`.
-/

namespace GoChain

/-! ## Strings, integers and the library functions the core calls -/

/-- A Go `string`: an immutable sequence of bytes, not necessarily valid UTF-8. -/
abbrev GoString := List UInt8

/-- The bytes of an ASCII literal of the source. -/
def ascii (s : String) : GoString := s.toList.map (fun c => UInt8.ofNat c.toNat)

/-- Conversion of a mathematical integer to Go's `int` (64 bits, two's complement). -/
def wrapInt64 (x : Int) : Int := (x + 2 ^ 63) % 2 ^ 64 - 2 ^ 63

/-- Go's `a + b` on `int`: the sum wraps around on overflow. -/
def addInt (a b : Int) : Int := wrapInt64 (a + b)

/-- The function `encoderune` of the Go runtime: the UTF-8 encoding of the rune `r`
(a 32-bit integer), the encoding of U+FFFD for a surrogate or a value above
U+10FFFF (a negative rune is above U+10FFFF once read as `uint32`). -/
def encoderune (r : Int) : GoString :=
  let i : Nat := (r % 2 ^ 32).toNat
  if i ≤ 0x7F then [UInt8.ofNat i]
  else if i ≤ 0x7FF then [UInt8.ofNat (0xC0 + i / 64), UInt8.ofNat (0x80 + i % 64)]
  else
    let i := if 0x10FFFF < i ∨ (0xD800 ≤ i ∧ i ≤ 0xDFFF) then 0xFFFD else i
    if i ≤ 0xFFFF then
      [UInt8.ofNat (0xE0 + i / 4096), UInt8.ofNat (0x80 + i / 64 % 64), UInt8.ofNat (0x80 + i % 64)]
    else
      [UInt8.ofNat (0xF0 + i / 262144), UInt8.ofNat (0x80 + i / 4096 % 64),
        UInt8.ofNat (0x80 + i / 64 % 64), UInt8.ofNat (0x80 + i % 64)]

/-- The conversion `string(v)` of an `int` (`intstring` of the Go runtime): a value
that does not fit a rune becomes U+FFFD, then the rune is encoded in UTF-8. The
result is one code point, not the decimal digits of `v`. -/
def stringOfInt (v : Int) : GoString :=
  if -(2 ^ 31) ≤ v ∧ v < 2 ^ 31 then encoderune v else encoderune 0xFFFD

/-- One digit of `hex.EncodeToString` (table `0123456789abcdef`). -/
def hexDigit (n : Nat) : UInt8 :=
  if n < 10 then UInt8.ofNat (0x30 + n) else UInt8.ofNat (0x61 + (n - 10))

/-- Go's `hex.EncodeToString`: two lowercase hexadecimal digits per byte. -/
def hexEncodeToString : List UInt8 → GoString
  | [] => []
  | b :: bs => hexDigit (b.toNat / 16) :: hexDigit (b.toNat % 16) :: hexEncodeToString bs

/-! ### SHA-256 (FIPS 180-4), as computed by `crypto/sha256` -/

namespace SHA256

/-- Addition modulo `2 ^ 32`. -/
def add32 (a b : Nat) : Nat := (a + b) % 2 ^ 32

/-- Rotation of a 32-bit word to the right. -/
def rotr (x n : Nat) : Nat := ((x >>> n) ||| (x <<< (32 - n))) % 2 ^ 32

/-- Bitwise complement of a 32-bit word. -/
def not32 (x : Nat) : Nat := 2 ^ 32 - 1 - x % 2 ^ 32

def ch (x y z : Nat) : Nat := (x &&& y) ^^^ (not32 x &&& z)
def maj (x y z : Nat) : Nat := (x &&& y) ^^^ (x &&& z) ^^^ (y &&& z)
def bigSigma0 (x : Nat) : Nat := rotr x 2 ^^^ rotr x 13 ^^^ rotr x 22
def bigSigma1 (x : Nat) : Nat := rotr x 6 ^^^ rotr x 11 ^^^ rotr x 25
def smallSigma0 (x : Nat) : Nat := rotr x 7 ^^^ rotr x 18 ^^^ (x >>> 3)
def smallSigma1 (x : Nat) : Nat := rotr x 17 ^^^ rotr x 19 ^^^ (x >>> 10)

/-- The round constants. -/
def K : List Nat :=
  [0x428a2f98, 0x71374491, 0xb5c0fbcf, 0xe9b5dba5, 0x3956c25b, 0x59f111f1, 0x923f82a4, 0xab1c5ed5,
   0xd807aa98, 0x12835b01, 0x243185be, 0x550c7dc3, 0x72be5d74, 0x80deb1fe, 0x9bdc06a7, 0xc19bf174,
   0xe49b69c1, 0xefbe4786, 0x0fc19dc6, 0x240ca1cc, 0x2de92c6f, 0x4a7484aa, 0x5cb0a9dc, 0x76f988da,
   0x983e5152, 0xa831c66d, 0xb00327c8, 0xbf597fc7, 0xc6e00bf3, 0xd5a79147, 0x06ca6351, 0x14292967,
   0x27b70a85, 0x2e1b2138, 0x4d2c6dfc, 0x53380d13, 0x650a7354, 0x766a0abb, 0x81c2c92e, 0x92722c85,
   0xa2bfe8a1, 0xa81a664b, 0xc24b8b70, 0xc76c51a3, 0xd192e819, 0xd6990624, 0xf40e3585, 0x106aa070,
   0x19a4c116, 0x1e376c08, 0x2748774c, 0x34b0bcb5, 0x391c0cb3, 0x4ed8aa4a, 0x5b9cca4f, 0x682e6ff3,
   0x748f82ee, 0x78a5636f, 0x84c87814, 0x8cc70208, 0x90befffa, 0xa4506ceb, 0xbef9a3f7, 0xc67178f2]

/-- The eight working words of the hash state. -/
structure State where
  a : Nat
  b : Nat
  c : Nat
  d : Nat
  e : Nat
  f : Nat
  g : Nat
  h : Nat

/-- The initial hash value. -/
def init : State :=
  ⟨0x6a09e667, 0xbb67ae85, 0x3c6ef372, 0xa54ff53a, 0x510e527f, 0x9b05688c, 0x1f83d9ab, 0x5be0cd19⟩

/-- The message followed by the bit `1`, zeros up to 56 modulo 64 bytes, and the
length of the message in bits as a 64-bit big-endian integer. -/
def pad (msg : List UInt8) : List UInt8 :=
  let len := msg.length
  let zeros := (119 - len % 64) % 64
  let bits := len * 8 % 2 ^ 64
  msg ++ [0x80] ++ List.replicate zeros 0 ++
    (List.range 8).map (fun i => UInt8.ofNat (bits / 2 ^ (8 * (7 - i)) % 256))

/-- Big-endian 32-bit words of a byte sequence (a trailing partial word is dropped). -/
def toWords : List UInt8 → List Nat
  | b0 :: b1 :: b2 :: b3 :: rest =>
      (b0.toNat * 2 ^ 24 + b1.toNat * 2 ^ 16 + b2.toNat * 2 ^ 8 + b3.toNat) :: toWords rest
  | _ => []

/-- The message schedule grown by `n` more words; `w` holds the words so far,
most recent first. -/
def extend : Nat → List Nat → List Nat
  | 0, w => w
  | n + 1, w =>
      let x := add32 (add32 (smallSigma1 (w.getD 1 0)) (w.getD 6 0))
        (add32 (smallSigma0 (w.getD 14 0)) (w.getD 15 0))
      extend n (x :: w)

/-- The 64 words of the message schedule of one 16-word block. -/
def schedule (block : List Nat) : List Nat := (extend 48 block.reverse).reverse

/-- One round of the compression function. -/
def round (s : State) (kw : Nat × Nat) : State :=
  let t1 := add32 (add32 (add32 s.h (bigSigma1 s.e)) (add32 (ch s.e s.f s.g) kw.1)) kw.2
  let t2 := add32 (bigSigma0 s.a) (maj s.a s.b s.c)
  ⟨add32 t1 t2, s.a, s.b, s.c, add32 s.d t1, s.e, s.f, s.g⟩

/-- The compression of one 16-word block into the hash state. -/
def compress (s : State) (block : List Nat) : State :=
  let r := (K.zip (schedule block)).foldl round s
  ⟨add32 s.a r.a, add32 s.b r.b, add32 s.c r.c, add32 s.d r.d,
   add32 s.e r.e, add32 s.f r.f, add32 s.g r.g, add32 s.h r.h⟩

/-- All blocks of `n * 16` words, compressed in order. -/
def blocks : Nat → State → List Nat → State
  | 0, s, _ => s
  | n + 1, s, ws => blocks n (compress s (ws.take 16)) (ws.drop 16)

/-- The four bytes of a 32-bit word, big-endian. -/
def wordBytes (w : Nat) : List UInt8 :=
  [UInt8.ofNat (w / 2 ^ 24 % 256), UInt8.ofNat (w / 2 ^ 16 % 256),
   UInt8.ofNat (w / 2 ^ 8 % 256), UInt8.ofNat (w % 256)]

/-- The 32 bytes of a hash state. -/
def State.bytes (s : State) : List UInt8 :=
  wordBytes s.a ++ wordBytes s.b ++ wordBytes s.c ++ wordBytes s.d ++
  wordBytes s.e ++ wordBytes s.f ++ wordBytes s.g ++ wordBytes s.h

end SHA256

/-- The digest computed by `sha256.New()`, `Write(data)`, `Sum(nil)`. -/
def sha256 (data : List UInt8) : List UInt8 :=
  let ws := SHA256.toWords (SHA256.pad data)
  SHA256.State.bytes (SHA256.blocks (ws.length / 16) SHA256.init ws)

/-! ### `json.Marshal` of a `BookCheckout` (package `encoding/json` as of Go 1.22)

The escapes of `\b` and `\f` and of a byte that is not UTF-8 differ between releases
of Go; on well-formed UTF-8 without these two control characters all releases write
the same bytes. -/

/-- The least second byte `utf8.DecodeRuneInString` accepts after the first byte `c0`
(table `acceptRanges`). -/
def acceptLo (c0 : Nat) : Nat :=
  if c0 = 0xE0 then 0xA0 else if c0 = 0xF0 then 0x90 else 0x80

/-- The greatest second byte `utf8.DecodeRuneInString` accepts after the first byte
`c0` (table `acceptRanges`). -/
def acceptHi (c0 : Nat) : Nat :=
  if c0 = 0xED then 0x9F else if c0 = 0xF4 then 0x8F else 0xBF

/-- The rune and the width of `utf8.DecodeRuneInString`: `(0xFFFD, 1)` for a byte that
does not start a well-formed UTF-8 sequence, `(0xFFFD, 0)` for the empty string. -/
def decodeRune : GoString → Nat × Nat
  | [] => (0xFFFD, 0)
  | p0 :: rest =>
    let c0 := p0.toNat
    if c0 < 0x80 then (c0, 1)
    else if c0 < 0xC2 ∨ 0xF4 < c0 then (0xFFFD, 1)
    else
      match rest with
      | [] => (0xFFFD, 1)
      | p1 :: rest1 =>
        let c1 := p1.toNat
        if c1 < acceptLo c0 ∨ acceptHi c0 < c1 then (0xFFFD, 1)
        else if c0 < 0xE0 then (c0 % 32 * 64 + c1 % 64, 2)
        else
          match rest1 with
          | [] => (0xFFFD, 1)
          | p2 :: rest2 =>
            let c2 := p2.toNat
            if c2 < 0x80 ∨ 0xBF < c2 then (0xFFFD, 1)
            else if c0 < 0xF0 then (c0 % 16 * 4096 + c1 % 64 * 64 + c2 % 64, 3)
            else
              match rest2 with
              | [] => (0xFFFD, 1)
              | p3 :: _ =>
                let c3 := p3.toNat
                if c3 < 0x80 ∨ 0xBF < c3 then (0xFFFD, 1)
                else (c0 % 8 * 262144 + c1 % 64 * 4096 + c2 % 64 * 64 + c3 % 64, 4)

/-- The table `htmlSafeSet`: the ASCII bytes copied unescaped into a JSON string when
HTML escaping is on (as it is in `json.Marshal`). -/
def htmlSafe (b : UInt8) : Bool :=
  0x20 ≤ b.toNat && b.toNat < 0x80 &&
    b.toNat != 0x22 && b.toNat != 0x26 && b.toNat != 0x3C && b.toNat != 0x3E && b.toNat != 0x5C

/-- The escape written for an ASCII byte outside `htmlSafeSet`. -/
def escapeByte (b : UInt8) : GoString :=
  if b.toNat = 0x5C ∨ b.toNat = 0x22 then [0x5C, b]
  else if b.toNat = 0x08 then [0x5C, 0x62]
  else if b.toNat = 0x0C then [0x5C, 0x66]
  else if b.toNat = 0x0A then [0x5C, 0x6E]
  else if b.toNat = 0x0D then [0x5C, 0x72]
  else if b.toNat = 0x09 then [0x5C, 0x74]
  else [0x5C, 0x75, 0x30, 0x30, hexDigit (b.toNat / 16), hexDigit (b.toNat % 16)]

/-- The loop of `appendString`: the bytes written between the two quotes for the
string `src`, at most `fuel` runes of it (each round consumes at least one byte). -/
def appendStringLoop : Nat → GoString → GoString
  | 0, _ => []
  | _ + 1, [] => []
  | fuel + 1, b :: rest =>
    if b.toNat < 0x80 then
      (if htmlSafe b then [b] else escapeByte b) ++ appendStringLoop fuel rest
    else
      let cs := decodeRune (b :: rest)
      if cs.1 = 0xFFFD ∧ cs.2 = 1 then
        [0x5C, 0x75, 0x66, 0x66, 0x66, 0x64] ++ appendStringLoop fuel rest
      else if cs.1 = 0x2028 ∨ cs.1 = 0x2029 then
        [0x5C, 0x75, 0x32, 0x30, 0x32, hexDigit (cs.1 % 16)] ++
          appendStringLoop fuel ((b :: rest).drop cs.2)
      else
        (b :: rest).take cs.2 ++ appendStringLoop fuel ((b :: rest).drop cs.2)

/-- The JSON string literal written by `appendString` for a Go string: control
characters, the quote, the backslash, `<`, `>`, `&`, U+2028 and U+2029 escaped, each
byte that is not part of well-formed UTF-8 replaced by the six characters of the
escape of U+FFFD. -/
def appendString (src : GoString) : GoString :=
  [0x22] ++ appendStringLoop src.length src ++ [0x22]

/-! ### Well-formed UTF-8 and the reading of a JSON string literal -/

/-- The loop of `utf8.ValidString`: no round of decoding meets a byte that does not
start a well-formed sequence. -/
def validLoop : Nat → GoString → Bool
  | 0, s => s.isEmpty
  | _ + 1, [] => true
  | fuel + 1, b :: rest =>
    let cs := decodeRune (b :: rest)
    if cs.1 = 0xFFFD ∧ cs.2 = 1 then false else validLoop fuel ((b :: rest).drop cs.2)

/-- Go's `utf8.ValidString`: the string is well-formed UTF-8. -/
def validString (s : GoString) : Bool := validLoop s.length s

/-- The value of a hexadecimal digit `0-9a-f`. -/
def unhex (c : UInt8) : Nat :=
  if c.toNat < 0x3A then c.toNat - 0x30 else c.toNat - 0x61 + 10

/-- A reader of the body of a JSON string literal as `appendString` writes it: the
bytes of the string up to the closing quote, and what follows the quote. -/
def unquoteLoop : Nat → GoString → Option (GoString × GoString)
  | 0, _ => none
  | _ + 1, [] => none
  | fuel + 1, c :: rest =>
    if c.toNat = 0x22 then some ([], rest)
    else if c.toNat = 0x5C then
      match rest with
      | [] => none
      | e :: rest1 =>
        if e.toNat = 0x75 then
          match rest1 with
          | a :: b :: x :: y :: rest2 =>
            let code := unhex a * 4096 + unhex b * 256 + unhex x * 16 + unhex y
            if code < 0x80 then
              (unquoteLoop fuel rest2).map (fun p => (UInt8.ofNat code :: p.1, p.2))
            else if code = 0x2028 then
              (unquoteLoop fuel rest2).map (fun p => (0xE2 :: 0x80 :: 0xA8 :: p.1, p.2))
            else if code = 0x2029 then
              (unquoteLoop fuel rest2).map (fun p => (0xE2 :: 0x80 :: 0xA9 :: p.1, p.2))
            else none
          | _ => none
        else
          let byte : UInt8 :=
            if e.toNat = 0x62 then 0x08
            else if e.toNat = 0x66 then 0x0C
            else if e.toNat = 0x6E then 0x0A
            else if e.toNat = 0x72 then 0x0D
            else if e.toNat = 0x74 then 0x09
            else e
          (unquoteLoop fuel rest1).map (fun p => (byte :: p.1, p.2))
    else (unquoteLoop fuel rest).map (fun p => (c :: p.1, p.2))

/-- A checkout event, the payload of a block (`type BookCheckout struct`). -/
structure BookCheckout where
  BookID : GoString := []
  User : GoString := []
  CheckoutDate : GoString := []
  IsGenesis : Bool := false
deriving DecidableEq, Repr

/-- The three strings of a payload are well-formed UTF-8 (as every payload decoded
from a request is). -/
def validPayload (d : BookCheckout) : Bool :=
  validString d.BookID && validString d.User && validString d.CheckoutDate

/-- The JSON object of a `BookCheckout`: its four fields in the order of the
declaration, under the keys of their tags. -/
def jsonObject (d : BookCheckout) : GoString :=
  ascii "\x7b\"book_id\":" ++ appendString d.BookID ++
  ascii ",\"user\":" ++ appendString d.User ++
  ascii ",\"checkout_date\":" ++ appendString d.CheckoutDate ++
  ascii ",\"is_genesis\":" ++ (if d.IsGenesis then ascii "true" else ascii "false") ++
  ascii "\x7d"

/-- The call `json.Marshal(b.Data)` with its two results: strings and a boolean are
always encodable, so the error result is never produced. -/
def jsonMarshal (d : BookCheckout) : Except String GoString := .ok (jsonObject d)

/-! ## The data model of the program -/

/-- A ledger entry (`type Block struct`); the default value is Go's zero value. -/
structure Block where
  Position : Int := 0
  Data : BookCheckout := {}
  TimeStamp : GoString := []
  Hash : GoString := []
  PreviousHash : GoString := []
deriving DecidableEq, Repr

/-- The ways a run of the core ends without a result. -/
inductive Fault where
  /-- The call of `log.Fatalf` in `generateHash`. -/
  | fatal
  /-- A dereference of a pointer that holds no block. -/
  | invalidAddress
  /-- The panic of an index expression out of range. -/
  | indexOutOfRange
deriving DecidableEq, Repr

/-- A `*Block`: the address of a block of the heap. -/
abbrev Ptr := Nat

/-- The blocks allocated so far; the block at address `p` is `cells[p]`. -/
structure Heap where
  cells : List Block
deriving DecidableEq, Repr

/-- The chain (`type Blockchain struct`): a slice of pointers to blocks. -/
structure Blockchain where
  blocks : List Ptr
deriving DecidableEq, Repr

/-- Reading through a pointer. -/
def Heap.load (h : Heap) (p : Ptr) : Except Fault Block :=
  match h.cells[p]? with
  | some b => .ok b
  | none => .error .invalidAddress

/-- An assignment to fields of the block at `p`. -/
def Heap.update (h : Heap) (p : Ptr) (f : Block → Block) : Except Fault Heap :=
  match h.cells[p]? with
  | some b => .ok ⟨h.cells.set p (f b)⟩
  | none => .error .invalidAddress

/-- The allocation `&Block{...}`: a fresh address and the heap that holds the block there. -/
def Heap.alloc (h : Heap) (b : Block) : Ptr × Heap :=
  (h.cells.length, ⟨h.cells ++ [b]⟩)

/-! ## The operations of the program -/

/-- The method `generateHash` (main.go, lines 45-55): the block's `Hash` becomes the
hexadecimal SHA-256 digest of `string(Position) + TimeStamp + JSON(Data) + PreviousHash`. -/
def generateHash (b : Ptr) (h : Heap) : Except Fault Heap := do
  let blk ← h.load b
  match jsonMarshal blk.Data with
  | .error _ => .error .fatal
  | .ok dataByte =>
    let data := stringOfInt blk.Position ++ blk.TimeStamp ++ dataByte ++ blk.PreviousHash
    let sum := sha256 data
    h.update b (fun x => { x with Hash := hexEncodeToString sum })

/-- The method `ValidateHash` (lines 72-78): the hash is generated again into the
block, then compared with the argument. -/
def ValidateHash (b : Ptr) (hash : GoString) (h : Heap) : Except Fault (Bool × Heap) := do
  let h ← generateHash b h
  let blk ← h.load b
  if blk.Hash ≠ hash then
    return (false, h)
  return (true, h)

/-- The function `validBlock` (lines 57-70). -/
def validBlock (block prevBlock : Ptr) (h : Heap) : Except Fault (Bool × Heap) := do
  let prev ← h.load prevBlock
  let blk ← h.load block
  if prev.Hash ≠ blk.PreviousHash then
    return (false, h)
  let r ← ValidateHash block blk.Hash h
  if !r.1 then
    return (false, r.2)
  let prev ← r.2.load prevBlock
  let blk ← r.2.load block
  if addInt prev.Position 1 ≠ blk.Position then
    return (false, r.2)
  return (true, r.2)

/-- The function `CreateBlock` (lines 80-89); `now` is the value of
`time.Now().String()` at the call. -/
def CreateBlock (prevBlock : Ptr) (checkoutItem : BookCheckout) (now : GoString) (h : Heap) :
    Except Fault (Ptr × Heap) := do
  let (block, h) := h.alloc {}
  let prev ← h.load prevBlock
  let h ← h.update block (fun x => { x with Position := addInt prev.Position 1 })
  let prev ← h.load prevBlock
  let h ← h.update block (fun x => { x with PreviousHash := prev.Hash })
  let h ← h.update block (fun x => { x with TimeStamp := now })
  let h ← h.update block (fun x => { x with Data := checkoutItem })
  let h ← generateHash block h
  return (block, h)

/-- The method `AddBlock` (lines 91-100) with the chain it leaves. -/
def AddBlock (bc : Blockchain) (data : BookCheckout) (now : GoString) (h : Heap) :
    Except Fault (Blockchain × Heap) :=
  match bc.blocks[bc.blocks.length - 1]? with
  | none => .error .indexOutOfRange
  | some prevBlock => do
    let (block, h) ← CreateBlock prevBlock data now h
    let r ← validBlock block prevBlock h
    if r.1 then
      return (⟨bc.blocks ++ [block]⟩, r.2)
    return (bc, r.2)

/-- Lines 92-96 of `AddBlock`, up to the test of the result of `validBlock`: the tail
is read, the candidate built and validated. The result is the candidate with the
verdict. -/
def AddBlock_prepare (bc : Blockchain) (data : BookCheckout) (now : GoString) (h : Heap) :
    Except Fault ((Ptr × Bool) × Heap) :=
  match bc.blocks[bc.blocks.length - 1]? with
  | none => .error .indexOutOfRange
  | some prevBlock => do
    let (block, h) ← CreateBlock prevBlock data now h
    let r ← validBlock block prevBlock h
    return ((block, r.1), r.2)

/-- Line 97 of `AddBlock`: when the verdict is true the candidate is appended to the
slice the chain holds at that moment. -/
def AddBlock_commit (bc : Blockchain) (r : Ptr × Bool) : Blockchain :=
  if r.2 then ⟨bc.blocks ++ [r.1]⟩ else bc

/-- Two `AddBlock` calls of two request handlers that overlap: each runs lines 92-96
on the chain `bc` before either runs line 97 (the source holds no lock between the
read of the tail and the append). -/
def AddBlock_overlapped (bc : Blockchain) (dataA : BookCheckout) (nowA : GoString)
    (dataB : BookCheckout) (nowB : GoString) (h : Heap) : Except Fault (Blockchain × Heap) := do
  let (rA, h) ← AddBlock_prepare bc dataA nowA h
  let (rB, h) ← AddBlock_prepare bc dataB nowB h
  return (AddBlock_commit (AddBlock_commit bc rA) rB, h)

/-- The function `GenesisBlock` (lines 150-152). -/
def GenesisBlock (now : GoString) (h : Heap) : Except Fault (Ptr × Heap) :=
  let (empty, h) := h.alloc {}
  CreateBlock empty { IsGenesis := true } now h

/-- The function `NewBlockChain` (lines 154-156). -/
def NewBlockChain (now : GoString) (h : Heap) : Except Fault (Blockchain × Heap) := do
  let (genesis, h) ← GenesisBlock now h
  return (⟨[genesis]⟩, h)

/-- A run of `AddBlock` calls, one per event: the payload and the clock reading of
the call. -/
def addBlocks : List (BookCheckout × GoString) → Blockchain × Heap →
    Except Fault (Blockchain × Heap)
  | [], s => .ok s
  | ev :: rest, s => do
    let s ← AddBlock s.1 ev.1 ev.2 s.2
    addBlocks rest s

/-- The chain of `NewBlockChain()` followed by one `AddBlock` call per event. -/
def runChain (now : GoString) (evs : List (BookCheckout × GoString)) (h : Heap) :
    Except Fault (Blockchain × Heap) := do
  let s ← NewBlockChain now h
  addBlocks evs s

/-- The blocks a chain points to, in order (what the read endpoint serialises). -/
def Heap.view (h : Heap) (bc : Blockchain) : List (Option Block) :=
  bc.blocks.map (fun p => h.cells[p]?)

/-! ## The values the operations compute -/

/-- The byte string `data` that `generateHash` builds from a block (line 50). -/
def commitInput (b : Block) : GoString :=
  stringOfInt b.Position ++ b.TimeStamp ++ jsonObject b.Data ++ b.PreviousHash

/-- The hash `generateHash` stores for a block: it does not read the field `Hash`. -/
def commitment (b : Block) : GoString :=
  hexEncodeToString (sha256 (commitInput b))

/-- The block `CreateBlock` builds from the block `prev` its first argument points to. -/
def newBlock (prev : Block) (checkoutItem : BookCheckout) (now : GoString) : Block :=
  { Position := addInt prev.Position 1
    Data := checkoutItem
    TimeStamp := now
    Hash := hexEncodeToString (sha256 (stringOfInt (addInt prev.Position 1) ++ now ++
      jsonObject checkoutItem ++ prev.Hash))
    PreviousHash := prev.Hash }

/-- The blocks of a chain after one `AddBlock` call per event, from the blocks `bs`
it holds before: each call appends the block built from the last one. -/
def extendChain : List Block → List (BookCheckout × GoString) → List Block
  | bs, [] => bs
  | bs, ev :: rest => extendChain (bs ++ [newBlock (bs.getLastD {}) ev.1 ev.2]) rest

/-- The blocks of the chain of `runChain`: the genesis block, built from a zero
block, then one block per event. -/
def chainValues (now : GoString) (evs : List (BookCheckout × GoString)) : List Block :=
  extendChain [newBlock {} { IsGenesis := true } now] evs

/-- Two consecutive blocks of a chain: the hash link and the next position. -/
def Linked (a b : Block) : Prop :=
  b.PreviousHash = a.Hash ∧ b.Position = addInt a.Position 1

/-- A character of `0123456789abcdef`. -/
def isLowerHex (c : UInt8) : Bool :=
  (0x30 ≤ c.toNat && c.toNat ≤ 0x39) || (0x61 ≤ c.toNat && c.toNat ≤ 0x66)

/-! ## Concrete inputs used to instantiate the theorems -/

/-- A tail block at position 1. -/
def demoTail : Block := { Position := 1, Hash := ascii "g" }

/-- A candidate at position 2 whose `PreviousHash` is not the hash of `demoTail`. -/
def demoCandidate : Block := { Position := 2, PreviousHash := ascii "x", Hash := ascii "c" }

/-- A heap holding `demoTail` at address 0 and `demoCandidate` at address 1. -/
def demoHeap : Heap := ⟨[demoTail, demoCandidate]⟩

/-- A payload. -/
def demoCheckout : BookCheckout :=
  { BookID := ascii "b1", User := ascii "alice", CheckoutDate := ascii "2024-01-01" }

/-- A candidate linked to `demoTail` at the next position, with a stored `Hash` that
is not its commitment. -/
def tamperedCandidate : Block := { Position := 2, PreviousHash := ascii "g", Hash := ascii "bad" }

/-- A heap holding `demoTail` at address 0 and `tamperedCandidate` at address 1. -/
def tamperedHeap : Heap := ⟨[demoTail, tamperedCandidate]⟩

/-- A block at the greatest position an `int` holds. -/
def lastPositionBlock : Block := { Position := 9223372036854775807, Hash := ascii "g" }

/-! ## Lemmas: the heap -/

theorem load_of_get {h : Heap} {p : Ptr} {b : Block} (hb : h.cells[p]? = some b) :
    h.load p = .ok b := by
  simp [Heap.load, hb]

theorem update_of_get {h : Heap} {p : Ptr} {b : Block} (f : Block → Block)
    (hb : h.cells[p]? = some b) : h.update p f = .ok ⟨h.cells.set p (f b)⟩ := by
  simp [Heap.update, hb]

theorem get_lt {h : Heap} {p : Ptr} {b : Block} (hb : h.cells[p]? = some b) :
    p < h.cells.length := by
  rcases Nat.lt_or_ge p h.cells.length with hlt | hge
  · exact hlt
  · rw [List.getElem?_eq_none hge] at hb
    cases hb

theorem get_set_self {l : List Block} {p : Ptr} {b : Block} (c : Block)
    (hb : l[p]? = some b) : (l.set p c)[p]? = some c := by
  have hlt : p < l.length := get_lt (h := ⟨l⟩) hb
  simp [List.getElem?_set, hlt]

theorem set_same {l : List Block} {p : Ptr} {b : Block} (hb : l[p]? = some b) :
    l.set p b = l := by
  apply List.ext_getElem? 
  intro i
  by_cases hi : p = i
  · subst hi
    rw [get_set_self b hb, hb]
  · simp [List.getElem?_set, hi]

/-! ## Lemmas: the result of each operation -/

theorem generateHash_eq {h : Heap} {p : Ptr} {b : Block} (hb : h.cells[p]? = some b) :
    generateHash p h = .ok ⟨h.cells.set p { b with Hash := commitment b }⟩ := by
  simp [generateHash, load_of_get hb, jsonMarshal, update_of_get _ hb, commitment, commitInput,
    bind, Except.bind]

theorem ValidateHash_eq {h : Heap} {p : Ptr} {b : Block} (hash : GoString)
    (hb : h.cells[p]? = some b) :
    ValidateHash p hash h =
      .ok (decide (commitment b = hash), ⟨h.cells.set p { b with Hash := commitment b }⟩) := by
  have h2 := get_set_self { b with Hash := commitment b } hb
  simp only [ValidateHash, generateHash_eq hb, bind, Except.bind]
  rw [load_of_get h2]
  by_cases hc : commitment b = hash <;> simp [pure, Except.pure, hc]

theorem validBlock_eq {h : Heap} {c t : Ptr} {cb tb : Block} (hne : c ≠ t)
    (hc : h.cells[c]? = some cb) (ht : h.cells[t]? = some tb) :
    validBlock c t h =
      .ok (decide (tb.Hash = cb.PreviousHash ∧ commitment cb = cb.Hash ∧
              addInt tb.Position 1 = cb.Position),
           if tb.Hash = cb.PreviousHash then ⟨h.cells.set c { cb with Hash := commitment cb }⟩
           else h) := by
  have hc2 := load_of_get (h := ⟨h.cells.set c { cb with Hash := commitment cb }⟩)
    (get_set_self { cb with Hash := commitment cb } hc)
  have ht2 : (⟨h.cells.set c { cb with Hash := commitment cb }⟩ : Heap).load t = .ok tb := by
    apply load_of_get
    show (h.cells.set c { cb with Hash := commitment cb })[t]? = some tb
    rw [List.getElem?_set_ne hne]
    exact ht
  simp only [validBlock, bind, Except.bind, load_of_get hc, load_of_get ht]
  by_cases h1 : tb.Hash = cb.PreviousHash
  · simp only [h1, ne_eq, not_true_eq_false, if_false, ValidateHash_eq _ hc, true_and, if_true,
      pure, Except.pure, hc2, ht2]
    by_cases h2 : commitment cb = cb.Hash
    · by_cases h3 : addInt tb.Position 1 = cb.Position <;> simp [h2, h3]
    · simp [h2]
  · simp [h1, pure, Except.pure]

theorem newBlock_commitment (prev : Block) (d : BookCheckout) (now : GoString) :
    commitment (newBlock prev d now) = (newBlock prev d now).Hash := rfl

theorem CreateBlock_eq {h : Heap} {prev : Ptr} {pb : Block} (d : BookCheckout) (now : GoString)
    (hp : h.cells[prev]? = some pb) :
    CreateBlock prev d now h = .ok (h.cells.length, ⟨h.cells ++ [newBlock pb d now]⟩) := by
  have hlt : prev < h.cells.length := get_lt hp
  have hl : ∀ x : Block, (⟨h.cells ++ [x]⟩ : Heap).load prev = .ok pb := by
    intro x
    apply load_of_get
    show (h.cells ++ [x])[prev]? = some pb
    rw [List.getElem?_append_left hlt]
    exact hp
  have hn : ∀ x : Block, (h.cells ++ [x])[h.cells.length]? = some x := by
    intro x
    simp
  have hu : ∀ (x : Block) (f : Block → Block),
      (⟨h.cells ++ [x]⟩ : Heap).update h.cells.length f = .ok ⟨h.cells ++ [f x]⟩ := by
    intro x f
    rw [update_of_get (h := ⟨h.cells ++ [x]⟩) f (hn x)]
    simp
  have hg : ∀ x : Block, generateHash h.cells.length ⟨h.cells ++ [x]⟩ =
      .ok ⟨h.cells ++ [{ x with Hash := commitment x }]⟩ := by
    intro x
    rw [generateHash_eq (h := ⟨h.cells ++ [x]⟩) (hn x)]
    simp
  simp only [CreateBlock, Heap.alloc, bind, Except.bind, hl, hu, hg, pure, Except.pure]
  rfl

theorem view_append {h : Heap} {bc : Blockchain} {bs : List Block} (x : Block)
    (hv : h.view bc = bs.map some) :
    (⟨h.cells ++ [x]⟩ : Heap).view ⟨bc.blocks ++ [h.cells.length]⟩ = (bs ++ [x]).map some := by
  have hold : ∀ p ∈ bc.blocks, (h.cells ++ [x])[p]? = h.cells[p]? := by
    intro p hp
    have hmem : h.cells[p]? ∈ bs.map some := by
      rw [← hv]
      exact List.mem_map_of_mem (fun q => h.cells[q]?) hp
    obtain ⟨b, -, hb⟩ := List.mem_map.mp hmem
    exact List.getElem?_append_left (get_lt hb.symm)
  simp only [Heap.view, List.map_append, List.map_cons, List.map_nil]
  rw [List.map_congr_left hold]
  have hv2 : List.map (fun p => h.cells[p]?) bc.blocks = bs.map some := hv
  rw [hv2]
  simp

theorem view_last {h : Heap} {bc : Blockchain} {bs : List Block} {tb : Block}
    (hv : h.view bc = bs.map some) (hl : bs.getLast? = some tb) :
    ∃ t, bc.blocks[bc.blocks.length - 1]? = some t ∧ h.cells[t]? = some tb := by
  have hlen : bc.blocks.length = bs.length := by
    have := congrArg List.length hv
    simpa [Heap.view] using this
  have h1 : (h.view bc)[bc.blocks.length - 1]? = some (some tb) := by
    rw [hv, hlen, List.getElem?_map, ← List.getLast?_eq_getElem?, hl]
    rfl
  simp only [Heap.view, List.getElem?_map] at h1
  cases hq : bc.blocks[bc.blocks.length - 1]? with
  | none => 
    rw [hq] at h1
    cases h1
  | some t =>
    rw [hq] at h1
    exact ⟨t, rfl, by simpa using h1⟩

theorem AddBlock_eq {h : Heap} {bc : Blockchain} {t : Ptr} {tb : Block} (d : BookCheckout)
    (now : GoString) (hq : bc.blocks[bc.blocks.length - 1]? = some t)
    (ht : h.cells[t]? = some tb) :
    AddBlock bc d now h =
      .ok (⟨bc.blocks ++ [h.cells.length]⟩, ⟨h.cells ++ [newBlock tb d now]⟩) := by
  have hlt : t < h.cells.length := get_lt ht
  have hne : h.cells.length ≠ t := Nat.ne_of_gt hlt
  have hc : (h.cells ++ [newBlock tb d now])[h.cells.length]? = some (newBlock tb d now) := by
    simp
  have ht2 : (h.cells ++ [newBlock tb d now])[t]? = some tb := by
    rw [List.getElem?_append_left hlt]
    exact ht
  have hv := validBlock_eq (h := ⟨h.cells ++ [newBlock tb d now]⟩) hne hc ht2
  have hsame : ({ newBlock tb d now with Hash := commitment (newBlock tb d now) } : Block) =
      newBlock tb d now := rfl
  rw [hsame, set_same hc] at hv
  have hd : decide (tb.Hash = (newBlock tb d now).PreviousHash ∧
      commitment (newBlock tb d now) = (newBlock tb d now).Hash ∧
      addInt tb.Position 1 = (newBlock tb d now).Position) = true :=
    decide_eq_true ⟨rfl, rfl, rfl⟩
  rw [hd] at hv
  simp only [AddBlock, hq, bind, Except.bind, CreateBlock_eq d now ht, hv, pure, Except.pure,
    if_true, ite_self]

theorem addBlocks_view (evs : List (BookCheckout × GoString)) :
    ∀ (bc : Blockchain) (h : Heap) (bs : List Block), bs ≠ [] → h.view bc = bs.map some →
      ∃ bc1 h1, addBlocks evs (bc, h) = .ok (bc1, h1) ∧
        h1.view bc1 = (extendChain bs evs).map some := by
  induction evs with
  | nil =>
    intro bc h bs _ hv
    exact ⟨bc, h, rfl, hv⟩
  | cons ev rest ih =>
    intro bc h bs hne hv
    obtain ⟨tb, htb⟩ : ∃ tb, bs.getLast? = some tb := by
      cases hl : bs.getLast? with
      | none => exact absurd (List.getLast?_eq_none_iff.mp hl) hne
      | some tb => exact ⟨tb, rfl⟩
    obtain ⟨t, hq, ht⟩ := view_last hv htb
    have hD : bs.getLastD {} = tb := by
      rw [List.getLastD_eq_getLast?, htb]
      rfl
    obtain ⟨bc1, h1, hrun, hv1⟩ := ih ⟨bc.blocks ++ [h.cells.length]⟩
      ⟨h.cells ++ [newBlock tb ev.1 ev.2]⟩ (bs ++ [newBlock tb ev.1 ev.2]) (by simp)
      (view_append _ hv)
    refine ⟨bc1, h1, ?_, ?_⟩
    · simp only [addBlocks, bind, Except.bind, AddBlock_eq ev.1 ev.2 hq ht]
      exact hrun
    · rw [hv1]
      simp only [extendChain, hD]

theorem NewBlockChain_eq (now : GoString) (h : Heap) :
    NewBlockChain now h =
      .ok (⟨[h.cells.length + 1]⟩,
           ⟨h.cells ++ [({} : Block)] ++ [newBlock {} { IsGenesis := true } now]⟩) := by
  have hz : (h.cells ++ [({} : Block)])[h.cells.length]? = some {} := by simp
  have hc := CreateBlock_eq (h := ⟨h.cells ++ [({} : Block)]⟩) { IsGenesis := true } now hz
  simp only [List.length_append, List.length_singleton] at hc
  simp only [NewBlockChain, GenesisBlock, Heap.alloc, bind, Except.bind, hc, pure, Except.pure]

theorem runChain_view (now : GoString) (evs : List (BookCheckout × GoString)) (h : Heap) :
    ∃ bc1 h1, runChain now evs h = .ok (bc1, h1) ∧
      h1.view bc1 = (chainValues now evs).map some := by
  have hv : (⟨h.cells ++ [({} : Block)] ++ [newBlock {} { IsGenesis := true } now]⟩ : Heap).view
      ⟨[h.cells.length + 1]⟩ = [newBlock {} { IsGenesis := true } now].map some := by
    simp only [Heap.view, List.map_cons, List.map_nil, List.append_assoc, List.singleton_append]
    rw [List.getElem?_append_right (Nat.le_succ _)]
    simp
  obtain ⟨bc1, h1, hrun, hv1⟩ := addBlocks_view evs _ _ _ (by simp) hv
  refine ⟨bc1, h1, ?_, hv1⟩
  simp only [runChain, bind, Except.bind, NewBlockChain_eq]
  exact hrun

/-! ## Lemmas: the blocks of a chain -/

theorem wrapInt64_of_range {x : Int} (h1 : -(2 ^ 63) ≤ x) (h2 : x < 2 ^ 63) : wrapInt64 x = x := by
  simp only [wrapInt64]
  omega

theorem addInt_wrapInt64 (n : Int) : addInt (wrapInt64 n) 1 = wrapInt64 (n + 1) := by
  simp only [addInt, wrapInt64]
  omega

theorem get_concat {l : List Block} {x a : Block} {i : Nat} (h : (l ++ [x])[i]? = some a) :
    (i < l.length ∧ l[i]? = some a) ∨ (i = l.length ∧ a = x) := by
  rcases Nat.lt_trichotomy i l.length with hlt | heq | hgt
  · left
    rw [List.getElem?_append_left hlt] at h
    exact ⟨hlt, h⟩
  · right
    subst heq
    simp at h
    exact ⟨rfl, h.symm⟩
  · rw [List.getElem?_eq_none (by simp; omega)] at h
    cases h

theorem extendChain_length (evs : List (BookCheckout × GoString)) :
    ∀ bs : List Block, (extendChain bs evs).length = bs.length + evs.length := by
  induction evs with
  | nil => intro bs; rfl
  | cons ev rest ih =>
    intro bs
    simp only [extendChain, ih, List.length_append, List.length_cons, List.length_nil]
    omega

theorem extendChain_inv (P : List Block → Prop)
    (step : ∀ bs tb d now, P bs → bs.getLast? = some tb → P (bs ++ [newBlock tb d now]))
    (evs : List (BookCheckout × GoString)) :
    ∀ bs : List Block, bs ≠ [] → P bs → P (extendChain bs evs) := by
  induction evs with
  | nil => intro bs _ hP; exact hP
  | cons ev rest ih =>
    intro bs hne hP
    obtain ⟨tb, htb⟩ : ∃ tb, bs.getLast? = some tb := by
      cases hl : bs.getLast? with
      | none => exact absurd (List.getLast?_eq_none_iff.mp hl) hne
      | some tb => exact ⟨tb, rfl⟩
    have hD : bs.getLastD {} = tb := by
      rw [List.getLastD_eq_getLast?, htb]
      rfl
    simp only [extendChain, hD]
    exact ih _ (by simp) (step bs tb ev.1 ev.2 hP htb)

theorem chainValues_linked (now : GoString) (evs : List (BookCheckout × GoString)) :
    ∀ i a b, (chainValues now evs)[i]? = some a → (chainValues now evs)[i + 1]? = some b →
      Linked a b := by
  refine extendChain_inv
    (fun bs => ∀ i a b, bs[i]? = some a → bs[i + 1]? = some b → Linked a b) ?_ evs _ (by simp) ?_
  · intro bs tb d t hP htb i a b ha hb
    rcases get_concat hb with ⟨hlt, hb1⟩ | ⟨heq, hb1⟩
    · rw [List.getElem?_append_left (by omega)] at ha
      exact hP i a b ha hb1
    · rw [List.getElem?_append_left (by omega)] at ha
      have hlast : bs[i]? = some tb := by
        rw [← htb, List.getLast?_eq_getElem?, ← heq]
        rfl
      rw [hlast] at ha
      cases ha
      subst hb1
      exact ⟨rfl, rfl⟩
  · intro i a b _ hb
    simp at hb

theorem chainValues_position (now : GoString) (evs : List (BookCheckout × GoString)) :
    ∀ (i : Nat) (a : Block), (chainValues now evs)[i]? = some a →
      a.Position = wrapInt64 ((i : Int) + 1) := by
  refine extendChain_inv
    (fun bs => ∀ (i : Nat) (a : Block), bs[i]? = some a → a.Position = wrapInt64 ((i : Int) + 1))
    ?_ evs _
    (by simp) ?_
  · intro bs tb d t hP htb i a ha
    rcases get_concat ha with ⟨_, ha1⟩ | ⟨heq, ha1⟩
    · exact hP i a ha1
    · have hpos : 0 < bs.length := by
        cases bs with
        | nil => simp at htb
        | cons x xs => simp
      have hlast : bs[bs.length - 1]? = some tb := by
        rw [← htb, List.getLast?_eq_getElem?]
      have h1 := hP _ _ hlast
      subst ha1
      show addInt tb.Position 1 = _
      rw [h1, addInt_wrapInt64, heq]
      congr 1
      omega
  · intro i a ha
    cases i with
    | zero =>
      simp at ha
      subst ha
      rfl
    | succ n => simp at ha

theorem chainValues_length (now : GoString) (evs : List (BookCheckout × GoString)) :
    (chainValues now evs).length = evs.length + 1 := by
  simp only [chainValues, extendChain_length, List.length_singleton]
  omega

/-! ## Lemmas: the conversion `string(int)` -/

theorem byte_toNat_ofNat (n : Nat) : (UInt8.ofNat n).toNat = n % 256 := rfl

theorem encoderune_invalid (r : Int) (h1 : -(2 ^ 31) ≤ r) (h2 : r < 2 ^ 31)
    (hr : r < 0 ∨ 0x10FFFF < r ∨ (0xD800 ≤ r ∧ r ≤ 0xDFFF)) :
    encoderune r = [0xEF, 0xBF, 0xBD] := by
  have hi : 0x10FFFF < (r % 2 ^ 32).toNat ∨
      (0xD800 ≤ (r % 2 ^ 32).toNat ∧ (r % 2 ^ 32).toNat ≤ 0xDFFF) := by
    omega
  have h7 : ¬ (r % 2 ^ 32).toNat ≤ 0x7F := by omega
  have h8 : ¬ (r % 2 ^ 32).toNat ≤ 0x7FF := by omega
  simp only [encoderune, h7, h8, if_false, hi, if_true]
  decide

/-- Every integer that is not a Unicode scalar value (a negative one, a surrogate,
one above U+10FFFF) has the same `string`: the encoding of U+FFFD. -/
theorem stringOfInt_invalid (v : Int)
    (hv : v < 0 ∨ 0x10FFFF < v ∨ (0xD800 ≤ v ∧ v ≤ 0xDFFF)) :
    stringOfInt v = [0xEF, 0xBF, 0xBD] := by
  unfold stringOfInt
  split
  · next h => exact encoderune_invalid v h.1 h.2 hv
  · decide

/-- On the Unicode scalar values `string` is injective. -/
theorem stringOfInt_injective_on_scalars (r s : Int)
    (hr : 0 ≤ r ∧ r ≤ 0x10FFFF ∧ ¬ (0xD800 ≤ r ∧ r ≤ 0xDFFF))
    (hs : 0 ≤ s ∧ s ≤ 0x10FFFF ∧ ¬ (0xD800 ≤ s ∧ s ≤ 0xDFFF))
    (h : stringOfInt r = stringOfInt s) : r = s := by
  obtain ⟨r1, r2, r3⟩ := hr
  obtain ⟨s1, s2, s3⟩ := hs
  have hr31 : -(2 ^ 31) ≤ r ∧ r < 2 ^ 31 := by omega
  have hs31 : -(2 ^ 31) ≤ s ∧ s < 2 ^ 31 := by omega
  simp only [stringOfInt, hr31, hs31, and_self, if_true] at h
  obtain ⟨i, hi⟩ : ∃ i : Nat, r = i := ⟨r.toNat, by omega⟩
  obtain ⟨j, hj⟩ : ∃ j : Nat, s = j := ⟨s.toNat, by omega⟩
  subst hi hj
  have ei : ((i : Int) % 2 ^ 32).toNat = i := by omega
  have ej : ((j : Int) % 2 ^ 32).toNat = j := by omega
  have hni : ¬ (0x10FFFF < i ∨ (0xD800 ≤ i ∧ i ≤ 0xDFFF)) := by omega
  have hnj : ¬ (0x10FFFF < j ∨ (0xD800 ≤ j ∧ j ≤ 0xDFFF)) := by omega
  simp only [encoderune, ei, ej, hni, hnj, if_false] at h
  have h := congrArg (List.map UInt8.toNat) h
  clear ei ej hr31 hs31
  have key : i = j := by
    by_cases a1 : i ≤ 0x7F <;> by_cases a2 : i ≤ 0x7FF <;> by_cases a3 : i ≤ 0xFFFF <;>
    by_cases b1 : j ≤ 0x7F <;> by_cases b2 : j ≤ 0x7FF <;> by_cases b3 : j ≤ 0xFFFF <;>
    simp only [a1, a2, a3, b1, b2, b3, if_true, if_false, List.map_cons, List.map_nil,
      byte_toNat_ofNat, List.cons.injEq, and_true, List.cons_ne_nil, List.nil_eq, and_false,
      reduceCtorEq] at h <;>
    omega
  rw [key]

/-- A change of `TimeStamp` alone or of `PreviousHash` alone changes the input of
the digest. -/
theorem commitInput_timeStamp_previousHash (b : Block) (x : GoString) :
    (x ≠ b.TimeStamp → commitInput { b with TimeStamp := x } ≠ commitInput b) ∧
    (x ≠ b.PreviousHash → commitInput { b with PreviousHash := x } ≠ commitInput b) := by
  constructor
  · intro hx he
    simp only [commitInput, List.append_assoc, List.append_cancel_left_eq,
      List.append_cancel_right_eq] at he
    exact hx he
  · intro hx he
    simp only [commitInput, List.append_cancel_left_eq] at he
    exact hx he

/-! ## Lemmas: JSON string literals can be read back -/

theorem byte_ofNat_toNat (b : UInt8) : UInt8.ofNat b.toNat = b := by
  apply UInt8.ext
  rw [byte_toNat_ofNat]
  exact Nat.mod_eq_of_lt (UInt8.toNat_lt b)

theorem byte_eq_of_toNat {b : UInt8} {n : Nat} (hn : n < 256) (h : b.toNat = n) :
    b = UInt8.ofNat n := by
  apply UInt8.ext
  rw [byte_toNat_ofNat, h, Nat.mod_eq_of_lt hn]

theorem unhex_hexDigit (k : Nat) (hk : k < 16) : unhex (hexDigit k) = k := by
  unfold hexDigit unhex
  by_cases h : k < 10
  · simp only [h, if_true, byte_toNat_ofNat]
    have : (0x30 + k) % 256 = 0x30 + k := by omega
    rw [this]
    have h2 : 0x30 + k < 0x3A := by omega
    simp only [h2, if_true]
    omega
  · simp only [h, if_false, byte_toNat_ofNat]
    have : (0x61 + (k - 10)) % 256 = 0x61 + (k - 10) := by omega
    rw [this]
    have h2 : ¬ 0x61 + (k - 10) < 0x3A := by omega
    simp only [h2, if_false]
    omega

theorem acceptLo_ge (c : Nat) : 0x80 ≤ acceptLo c := by
  unfold acceptLo
  split_ifs <;> omega

theorem acceptLo_F0 (c : Nat) (h : c = 0xF0) : acceptLo c = 0x90 := by
  subst h
  rfl

theorem acceptHi_le (c : Nat) : acceptHi c ≤ 0xBF := by
  unfold acceptHi
  split_ifs <;> omega

theorem decodeRune_cases (b : UInt8) (rest : GoString) (hb : 0x80 ≤ b.toNat) :
    decodeRune (b :: rest) = (0xFFFD, 1) ∨
    (∃ p1 r, rest = p1 :: r ∧ 0x80 ≤ p1.toNat ∧ (decodeRune (b :: rest)).2 = 2 ∧
      (decodeRune (b :: rest)).1 < 0x800) ∨
    (∃ p1 p2 r, rest = p1 :: p2 :: r ∧ 0x80 ≤ p1.toNat ∧ 0x80 ≤ p2.toNat ∧
      (decodeRune (b :: rest)).2 = 3 ∧
      (decodeRune (b :: rest)).1 = b.toNat % 16 * 4096 + p1.toNat % 64 * 64 + p2.toNat % 64 ∧
      0xE0 ≤ b.toNat ∧ b.toNat < 0xF0 ∧ p1.toNat ≤ 0xBF ∧ p2.toNat ≤ 0xBF) ∨
    (∃ p1 p2 p3 r, rest = p1 :: p2 :: p3 :: r ∧ 0x80 ≤ p1.toNat ∧ 0x80 ≤ p2.toNat ∧
      0x80 ≤ p3.toNat ∧ (decodeRune (b :: rest)).2 = 4 ∧ 0x10000 ≤ (decodeRune (b :: rest)).1) := by
  have h80 : ¬ b.toNat < 0x80 := by omega
  have hlo := acceptLo_ge b.toNat
  have hhi := acceptHi_le b.toNat
  have hf0 := acceptLo_F0 b.toNat
  rcases rest with _ | ⟨p1, rest1⟩
  · left
    simp only [decodeRune, h80, if_false]
    split_ifs <;> rfl
  simp only [decodeRune, h80, if_false]
  by_cases c1 : b.toNat < 0xC2 ∨ 0xF4 < b.toNat
  · left
    simp only [c1, if_true]
  simp only [c1, if_false]
  by_cases c2 : p1.toNat < acceptLo b.toNat ∨ acceptHi b.toNat < p1.toNat
  · left
    simp only [c2, if_true]
  simp only [c2, if_false]
  by_cases c3 : b.toNat < 0xE0
  · right; left
    simp only [c3, if_true]
    refine ⟨p1, rest1, ?_, ?_, ?_, ?_⟩ <;> first | rfl | trivial | omega
  simp only [c3, if_false]
  rcases rest1 with _ | ⟨p2, rest2⟩
  · left
    rfl
  simp only []
  by_cases c4 : p2.toNat < 0x80 ∨ 0xBF < p2.toNat
  · left
    simp only [c4, if_true]
  simp only [c4, if_false]
  by_cases c5 : b.toNat < 0xF0
  · right; right; left
    simp only [c5, if_true]
    refine ⟨p1, p2, rest2, ?_, ?_, ?_, ?_, ?_, ?_, ?_, ?_, ?_⟩ <;>
      first | rfl | trivial | omega
  simp only [c5, if_false]
  rcases rest2 with _ | ⟨p3, rest3⟩
  · left
    rfl
  simp only []
  by_cases c6 : p3.toNat < 0x80 ∨ 0xBF < p3.toNat
  · left
    simp only [c6, if_true]
  simp only [c6, if_false]
  right; right; right
  refine ⟨p1, p2, p3, rest3, ?_, ?_, ?_, ?_, ?_, ?_⟩ <;> first | rfl | trivial | omega

theorem decodeRune_width_pos (b : UInt8) (rest : GoString) :
    1 ≤ (decodeRune (b :: rest)).2 := by
  by_cases hb : b.toNat < 0x80
  · simp only [decodeRune, hb, if_true]
    exact Nat.le_refl 1
  · rcases decodeRune_cases b rest (by omega) with h | ⟨_, _, _, _, h, _⟩ |
      ⟨_, _, _, _, _, _, h, _⟩ | ⟨_, _, _, _, _, _, _, _, h, _⟩ <;> rw [h] <;> decide

/-- More fuel than the length of the string never changes what `appendStringLoop`
writes: the fuel `len(src)` of `appendString` is enough. -/
theorem appendStringLoop_fuel (n : Nat) :
    ∀ (s : GoString) (m : Nat), s.length ≤ n → s.length ≤ m →
      appendStringLoop n s = appendStringLoop m s := by
  induction n with
  | zero =>
    intro s m hs _
    have hnil : s = [] := List.length_eq_zero.mp (by omega)
    subst hnil
    cases m <;> rfl
  | succ n ih =>
    intro s m hs hm
    cases s with
    | nil => cases m <;> rfl
    | cons b rest =>
      simp only [List.length_cons] at hs hm
      obtain ⟨m1, rfl⟩ : ∃ m1, m = m1 + 1 := ⟨m - 1, by omega⟩
      have hw := decodeRune_width_pos b rest
      have hdrop : ((b :: rest).drop (decodeRune (b :: rest)).2).length ≤ rest.length := by
        rw [List.length_drop, List.length_cons]
        omega
      simp only [appendStringLoop]
      rw [ih rest m1 (by omega) (by omega),
        ih ((b :: rest).drop (decodeRune (b :: rest)).2) m1 (by omega) (by omega)]

theorem unquoteLoop_quote (f : Nat) (X : GoString) :
    unquoteLoop (f + 1) (0x22 :: X) = some ([], X) := by
  have q : (0x22 : UInt8).toNat = 0x22 := rfl
  simp only [unquoteLoop, q, if_true]

theorem unquoteLoop_lit (c : UInt8) (h1 : c.toNat ≠ 0x22) (h2 : c.toNat ≠ 0x5C) (f : Nat)
    (X : GoString) :
    unquoteLoop (f + 1) (c :: X) = (unquoteLoop f X).map (fun p => (c :: p.1, p.2)) := by
  simp only [unquoteLoop, h1, h2, if_false]

/-- The byte a two-character escape stands for. -/
theorem unquoteLoop_esc2 (e out : UInt8) (he : e.toNat ≠ 0x75)
    (hout : (if e.toNat = 0x62 then 0x08
      else if e.toNat = 0x66 then 0x0C
      else if e.toNat = 0x6E then 0x0A
      else if e.toNat = 0x72 then 0x0D
      else if e.toNat = 0x74 then 0x09
      else e) = out) (f : Nat) (X : GoString) :
    unquoteLoop (f + 1) (0x5C :: e :: X) =
      (unquoteLoop f X).map (fun p => (out :: p.1, p.2)) := by
  have q1 : ¬ (0x5C : UInt8).toNat = 0x22 := by decide
  have q2 : (0x5C : UInt8).toNat = 0x5C := rfl
  simp only [unquoteLoop, q2, if_true, he, if_false, hout]
  rw [if_neg (by decide)]

theorem unquoteLoop_escU (a b x y : UInt8) (out : GoString) (f : Nat) (X : GoString)
    (hout : (unhex a * 4096 + unhex b * 256 + unhex x * 16 + unhex y < 0x80 ∧
        out = [UInt8.ofNat (unhex a * 4096 + unhex b * 256 + unhex x * 16 + unhex y)]) ∨
      (unhex a * 4096 + unhex b * 256 + unhex x * 16 + unhex y = 0x2028 ∧
        out = [0xE2, 0x80, 0xA8]) ∨
      (unhex a * 4096 + unhex b * 256 + unhex x * 16 + unhex y = 0x2029 ∧
        out = [0xE2, 0x80, 0xA9])) :
    unquoteLoop (f + 1) (0x5C :: 0x75 :: a :: b :: x :: y :: X) =
      (unquoteLoop f X).map (fun p => (out ++ p.1, p.2)) := by
  have q1 : ¬ (0x5C : UInt8).toNat = 0x22 := by decide
  have q2 : (0x5C : UInt8).toNat = 0x5C := rfl
  have q3 : (0x75 : UInt8).toNat = 0x75 := rfl
  simp only [unquoteLoop, q2, q3, if_true]
  rw [if_neg (by decide)]
  rcases hout with ⟨h1, rfl⟩ | ⟨h1, rfl⟩ | ⟨h1, rfl⟩
  · simp only [h1, if_true, List.cons_append, List.nil_append]
  · simp only [h1, List.cons_append, List.nil_append]
    rfl
  · simp only [h1, List.cons_append, List.nil_append]
    rfl

theorem byte_of_toNat_eq {b c : UInt8} (h : b.toNat = c.toNat) : b = c := UInt8.ext h

theorem unquoteLoop_escapeByte (b : UInt8) (hb : b.toNat < 0x80)
    (f : Nat) (X : GoString) :
    unquoteLoop (f + 1) (escapeByte b ++ X) =
      (unquoteLoop f X).map (fun p => (b :: p.1, p.2)) := by
  unfold escapeByte
  by_cases c1 : b.toNat = 0x5C ∨ b.toNat = 0x22
  · simp only [c1, if_true, List.cons_append, List.nil_append]
    apply unquoteLoop_esc2
    · omega
    · have e1 : ¬ b.toNat = 0x62 := by omega
      have e2 : ¬ b.toNat = 0x66 := by omega
      have e3 : ¬ b.toNat = 0x6E := by omega
      have e4 : ¬ b.toNat = 0x72 := by omega
      have e5 : ¬ b.toNat = 0x74 := by omega
      simp only [e1, e2, e3, e4, e5, if_false]
  simp only [c1, if_false]
  by_cases c2 : b.toNat = 0x08
  · simp only [c2, if_true, List.cons_append, List.nil_append]
    have hb8 : b = 0x08 := byte_of_toNat_eq c2
    rw [hb8]
    exact unquoteLoop_esc2 0x62 0x08 (by decide) (by decide) f X
  simp only [c2, if_false]
  by_cases c3 : b.toNat = 0x0C
  · simp only [c3, if_true, List.cons_append, List.nil_append]
    have hb8 : b = 0x0C := byte_of_toNat_eq c3
    rw [hb8]
    exact unquoteLoop_esc2 0x66 0x0C (by decide) (by decide) f X
  simp only [c3, if_false]
  by_cases c4 : b.toNat = 0x0A
  · simp only [c4, if_true, List.cons_append, List.nil_append]
    have hb8 : b = 0x0A := byte_of_toNat_eq c4
    rw [hb8]
    exact unquoteLoop_esc2 0x6E 0x0A (by decide) (by decide) f X
  simp only [c4, if_false]
  by_cases c5 : b.toNat = 0x0D
  · simp only [c5, if_true, List.cons_append, List.nil_append]
    have hb8 : b = 0x0D := byte_of_toNat_eq c5
    rw [hb8]
    exact unquoteLoop_esc2 0x72 0x0D (by decide) (by decide) f X
  simp only [c5, if_false]
  by_cases c6 : b.toNat = 0x09
  · simp only [c6, if_true, List.cons_append, List.nil_append]
    have hb8 : b = 0x09 := byte_of_toNat_eq c6
    rw [hb8]
    exact unquoteLoop_esc2 0x74 0x09 (by decide) (by decide) f X
  simp only [c6, if_false, List.cons_append, List.nil_append]
  have u0 : unhex 0x30 = 0 := by decide
  have u1 := unhex_hexDigit (b.toNat / 16) (by omega)
  have u2 := unhex_hexDigit (b.toNat % 16) (by omega)
  have hcode : unhex 0x30 * 4096 + unhex 0x30 * 256 + unhex (hexDigit (b.toNat / 16)) * 16 +
      unhex (hexDigit (b.toNat % 16)) = b.toNat := by
    rw [u0, u1, u2]
    omega
  have := unquoteLoop_escU 0x30 0x30 (hexDigit (b.toNat / 16)) (hexDigit (b.toNat % 16)) [b] f X
    (Or.inl ⟨by rw [hcode]; exact hb, by rw [hcode, byte_ofNat_toNat]⟩)
  simpa using this

theorem htmlSafe_ne (b : UInt8) (h : htmlSafe b = true) : b.toNat ≠ 0x22 ∧ b.toNat ≠ 0x5C := by
  simp only [htmlSafe, Bool.and_eq_true, bne_iff_ne, ne_eq, decide_eq_true_eq] at h
  exact ⟨h.1.1.1.1.2, h.2⟩

theorem escapeByte_length (b : UInt8) : 1 ≤ (escapeByte b).length := by
  unfold escapeByte
  split_ifs <;> simp

theorem unquoteLoop_raw (tok : GoString) (htok : ∀ c ∈ tok, 0x80 ≤ c.toNat) (f : Nat)
    (X : GoString) :
    unquoteLoop (f + tok.length) (tok ++ X) =
      (unquoteLoop f X).map (fun p => (tok ++ p.1, p.2)) := by
  induction tok with
  | nil =>
    simp only [List.length_nil, Nat.add_zero, List.nil_append]
    cases unquoteLoop f X <;> rfl
  | cons c t ih =>
    have hc := htok c (List.mem_cons_self _ _)
    have hlen : f + (c :: t).length = (f + t.length) + 1 := by
      simp only [List.length_cons]
      omega
    rw [hlen, List.cons_append, unquoteLoop_lit c (by omega) (by omega),
      ih (fun d hd => htok d (List.mem_cons_of_mem _ hd))]
    cases unquoteLoop f X <;> rfl

theorem unquote_appendStringLoop (n : Nat) :
    ∀ (s : GoString), s.length ≤ n → validLoop n s = true →
    ∀ (rest : GoString) (f : Nat), (appendStringLoop n s).length + 1 ≤ f →
      unquoteLoop f (appendStringLoop n s ++ 0x22 :: rest) = some (s, rest) := by
  induction n with
  | zero =>
    intro s hs _ rest f hf
    have hnil : s = [] := List.length_eq_zero.mp (by omega)
    subst hnil
    obtain ⟨f1, rfl⟩ : ∃ f1, f = f1 + 1 := ⟨f - 1, by omega⟩
    simp only [appendStringLoop, List.nil_append]
    exact unquoteLoop_quote f1 rest
  | succ n ih =>
    intro s hs hv rest f hf
    cases s with
    | nil =>
      obtain ⟨f1, rfl⟩ : ∃ f1, f = f1 + 1 := ⟨f - 1, by omega⟩
      simp only [appendStringLoop, List.nil_append]
      exact unquoteLoop_quote f1 rest
    | cons b rest0 =>
      have hlen : rest0.length ≤ n := by
        simp only [List.length_cons] at hs
        omega
      by_cases hb : b.toNat < 0x80
      · have hd : decodeRune (b :: rest0) = (b.toNat, 1) := by
          simp only [decodeRune, hb, if_true]
        have hne : ¬ (b.toNat = 0xFFFD ∧ 1 = 1) := by omega
        have hv0 : validLoop n rest0 = true := by
          unfold validLoop at hv
          simp only [hd] at hv
          have hne2 : ¬ (b.toNat = 65533 ∧ True) := by omega
          rw [if_neg hne2] at hv
          exact hv
        simp only [appendStringLoop, hb, if_true] at hf ⊢
        by_cases hsafe : htmlSafe b = true
        · simp only [hsafe, if_true, List.singleton_append, List.cons_append, List.length_cons,
            List.nil_append] at hf ⊢
          obtain ⟨f1, rfl⟩ : ∃ f1, f = f1 + 1 := ⟨f - 1, by omega⟩
          obtain ⟨h1, h2⟩ := htmlSafe_ne b hsafe
          rw [unquoteLoop_lit b h1 h2, ih rest0 hlen hv0 rest f1 (by omega)]
          rfl
        · have hs0 : htmlSafe b = false := by simpa using hsafe
          simp only [hs0, Bool.false_eq_true, if_false, List.append_assoc, List.length_append]
            at hf ⊢
          obtain ⟨f1, rfl⟩ : ∃ f1, f = f1 + 1 := ⟨f - 1, by omega⟩
          have hel := escapeByte_length b
          rw [unquoteLoop_escapeByte b hb, ih rest0 hlen hv0 rest f1 (by omega)]
          rfl
      · have hb80 : 0x80 ≤ b.toNat := by omega
        have hcases := decodeRune_cases b rest0 hb80
        unfold validLoop at hv
        simp only [appendStringLoop, hb, if_false] at hf ⊢
        generalize hcs : decodeRune (b :: rest0) = cs at hv hf hcases ⊢
        by_cases hinv : cs.1 = 0xFFFD ∧ cs.2 = 1
        · rw [if_pos hinv] at hv
          cases hv
        rw [if_neg hinv] at hv hf ⊢
        rcases hcases with h0 | ⟨p1, r, rfl, hp1, hsz, hval⟩ |
          ⟨p1, p2, r, rfl, hp1, hp2, hsz, hval, hb1, hb2, hq1, hq2⟩ |
          ⟨p1, p2, p3, r, rfl, hp1, hp2, hp3, hsz, hval⟩
        · exfalso
          apply hinv
          rw [h0]
          exact ⟨rfl, rfl⟩
        · have h28 : ¬ (cs.1 = 0x2028 ∨ cs.1 = 0x2029) := by omega
          rw [if_neg h28] at hf ⊢
          rw [hsz] at hv hf ⊢
          simp only [List.take_succ_cons, List.take_zero, List.drop_succ_cons, List.drop_zero,
            List.length_append, List.length_cons, List.length_nil, List.append_assoc] at hv hf ⊢
          simp only [List.length_cons] at hs
          obtain ⟨f1, rfl⟩ : ∃ f1, f = f1 + [b, p1].length := ⟨f - 2, by simp; omega⟩
          rw [unquoteLoop_raw [b, p1] (by simp; omega), ih r (by omega) hv rest f1 (by simp at hf; omega)]
          rfl
        · simp only [List.length_cons] at hs
          by_cases h28 : cs.1 = 0x2028 ∨ cs.1 = 0x2029
          · rw [if_pos h28] at hf ⊢
            rw [hsz] at hv hf ⊢
            simp only [List.drop_succ_cons, List.drop_zero, List.length_append, List.length_cons,
              List.length_nil, List.append_assoc, List.cons_append, List.nil_append] at hv hf ⊢
            obtain ⟨f1, rfl⟩ : ∃ f1, f = f1 + 1 := ⟨f - 1, by omega⟩
            have eb : b = 0xE2 := byte_of_toNat_eq (by
              show b.toNat = 0xE2
              omega)
            have e1 : p1 = 0x80 := byte_of_toNat_eq (by
              show p1.toNat = 0x80
              omega)
            rcases h28 with h | h
            · have e2 : p2 = 0xA8 := byte_of_toNat_eq (by
                show p2.toNat = 0xA8
                omega)
              rw [h, unquoteLoop_escU 0x32 0x30 0x32 (hexDigit (0x2028 % 16)) [0xE2, 0x80, 0xA8] f1 _
                (Or.inr (Or.inl ⟨by decide, rfl⟩)), ih r (by omega) hv rest f1 (by omega), eb, e1, e2]
              rfl
            · have e2 : p2 = 0xA9 := byte_of_toNat_eq (by
                show p2.toNat = 0xA9
                omega)
              rw [h, unquoteLoop_escU 0x32 0x30 0x32 (hexDigit (0x2029 % 16)) [0xE2, 0x80, 0xA9] f1 _
                (Or.inr (Or.inr ⟨by decide, rfl⟩)), ih r (by omega) hv rest f1 (by omega), eb, e1, e2]
              rfl
          · rw [if_neg h28] at hf ⊢
            rw [hsz] at hv hf ⊢
            simp only [List.take_succ_cons, List.take_zero, List.drop_succ_cons, List.drop_zero,
              List.length_append, List.length_cons, List.length_nil, List.append_assoc] at hv hf ⊢
            obtain ⟨f1, rfl⟩ : ∃ f1, f = f1 + [b, p1, p2].length := ⟨f - 3, by simp; omega⟩
            rw [unquoteLoop_raw [b, p1, p2] (by simp; omega),
              ih r (by omega) hv rest f1 (by simp at hf; omega)]
            rfl
        · have h28 : ¬ (cs.1 = 0x2028 ∨ cs.1 = 0x2029) := by omega
          rw [if_neg h28] at hf ⊢
          rw [hsz] at hv hf ⊢
          simp only [List.take_succ_cons, List.take_zero, List.drop_succ_cons, List.drop_zero,
            List.length_append, List.length_cons, List.length_nil, List.append_assoc] at hv hf ⊢
          simp only [List.length_cons] at hs
          obtain ⟨f1, rfl⟩ : ∃ f1, f = f1 + [b, p1, p2, p3].length := ⟨f - 4, by simp; omega⟩
          rw [unquoteLoop_raw [b, p1, p2, p3] (by simp; omega),
            ih r (by omega) hv rest f1 (by simp at hf; omega)]
          rfl

theorem appendString_inj (s t r1 r2 : GoString) (hs : validString s = true)
    (ht : validString t = true) (h : appendString s ++ r1 = appendString t ++ r2) :
    s = t ∧ r1 = r2 := by
  simp only [appendString, List.append_assoc, List.cons_append, List.nil_append,
    List.cons.injEq, true_and] at h
  have a := unquote_appendStringLoop s.length s (Nat.le_refl _) hs r1
    ((appendStringLoop s.length s).length + (appendStringLoop t.length t).length + 1) (by omega)
  have b := unquote_appendStringLoop t.length t (Nat.le_refl _) ht r2
    ((appendStringLoop s.length s).length + (appendStringLoop t.length t).length + 1) (by omega)
  rw [h, b] at a
  simp only [Option.some.injEq, Prod.mk.injEq] at a
  exact ⟨a.1.symm, a.2.symm⟩

/-- On payloads of well-formed UTF-8 strings the JSON encoding is injective. -/
theorem jsonObject_injective (d e : BookCheckout) (hd : validPayload d = true)
    (he : validPayload e = true) (h : jsonObject d = jsonObject e) : d = e := by
  simp only [validPayload, Bool.and_eq_true] at hd he
  obtain ⟨⟨hd1, hd2⟩, hd3⟩ := hd
  obtain ⟨⟨he1, he2⟩, he3⟩ := he
  simp only [jsonObject, List.append_assoc] at h
  have h1 := appendString_inj _ _ _ _ hd1 he1 (List.append_cancel_left h)
  have h2 := appendString_inj _ _ _ _ hd2 he2 (List.append_cancel_left h1.2)
  have h3 := appendString_inj _ _ _ _ hd3 he3 (List.append_cancel_left h2.2)
  have h4 := List.append_cancel_left h3.2
  have h5 : d.IsGenesis = e.IsGenesis := by
    cases hg : d.IsGenesis <;> cases hg2 : e.IsGenesis <;> simp only [hg, hg2] at h4 ⊢
    · exact absurd h4 (by decide)
    · exact absurd h4 (by decide)
  cases d
  cases e
  simp only [BookCheckout.mk.injEq]
  exact ⟨h1.1, h2.1, h3.1, h5⟩

/-- What the hash does commit to: between two blocks whose positions are Unicode
scalar values and whose payload strings are well-formed UTF-8, and which agree on
three of the fields `Position`, `TimeStamp`, `Data`, `PreviousHash`, equal inputs of
the digest force the fourth field to agree as well. -/
theorem commitInput_single_field (b c : Block)
    (hb : 0 ≤ b.Position ∧ b.Position ≤ 0x10FFFF ∧ ¬ (0xD800 ≤ b.Position ∧ b.Position ≤ 0xDFFF))
    (hc : 0 ≤ c.Position ∧ c.Position ≤ 0x10FFFF ∧ ¬ (0xD800 ≤ c.Position ∧ c.Position ≤ 0xDFFF))
    (hbd : validPayload b.Data = true) (hcd : validPayload c.Data = true)
    (hthree :
      (c.TimeStamp = b.TimeStamp ∧ c.Data = b.Data ∧ c.PreviousHash = b.PreviousHash) ∨
      (c.Position = b.Position ∧ c.Data = b.Data ∧ c.PreviousHash = b.PreviousHash) ∨
      (c.Position = b.Position ∧ c.TimeStamp = b.TimeStamp ∧ c.PreviousHash = b.PreviousHash) ∨
      (c.Position = b.Position ∧ c.TimeStamp = b.TimeStamp ∧ c.Data = b.Data))
    (hin : commitInput c = commitInput b) :
    c.Position = b.Position ∧ c.TimeStamp = b.TimeStamp ∧ c.Data = b.Data ∧
      c.PreviousHash = b.PreviousHash := by
  simp only [commitInput, List.append_assoc] at hin
  rcases hthree with ⟨h2, h3, h4⟩ | ⟨h1, h3, h4⟩ | ⟨h1, h2, h4⟩ | ⟨h1, h2, h3⟩
  · rw [h2, h3, h4] at hin
    exact ⟨stringOfInt_injective_on_scalars _ _ hc hb (List.append_cancel_right hin), h2, h3, h4⟩
  · rw [h1, h3, h4] at hin
    exact ⟨h1, List.append_cancel_right (List.append_cancel_left hin), h3, h4⟩
  · rw [h1, h2, h4] at hin
    have h := List.append_cancel_right (List.append_cancel_left (List.append_cancel_left hin))
    exact ⟨h1, h2, jsonObject_injective _ _ hcd hbd h, h4⟩
  · rw [h1, h2, h3] at hin
    exact ⟨h1, h2, h3,
      List.append_cancel_left (List.append_cancel_left (List.append_cancel_left hin))⟩

/-- The JSON encoding does not tell apart two bytes that are not UTF-8: each becomes
the escape of U+FFFD. -/
theorem jsonObject_invalid_bytes :
    jsonObject { BookID := [0xFF] } = jsonObject { BookID := [0xFE] } := by
  decide

/-! ## Lemmas: the shape of a hash -/

theorem hexEncodeToString_length (l : List UInt8) :
    (hexEncodeToString l).length = 2 * l.length := by
  induction l with
  | nil => rfl
  | cons b bs ih =>
    simp only [hexEncodeToString, List.length_cons, ih]
    omega

theorem sha256_length (data : List UInt8) : (sha256 data).length = 32 := by
  simp [sha256, SHA256.State.bytes, SHA256.wordBytes]

theorem commitment_length (b : Block) : (commitment b).length = 64 := by
  simp [commitment, hexEncodeToString_length, sha256_length]

/-! ## Lemmas: what an operation leaves in place -/

theorem get_append_of_get {l : List Block} {p : Ptr} {b : Block} (x : Block)
    (hb : l[p]? = some b) : (l ++ [x])[p]? = some b := by
  rw [List.getElem?_append_left (get_lt (h := ⟨l⟩) hb)]
  exact hb

/-! ## The properties of the specification -/

/-- C1 (append monotonicity). For every number of `AddBlock` calls on the chain of
`NewBlockChain()`, with any payloads and clock readings, the run ends normally, the
chain has one block more than there were calls, and every two consecutive blocks
`a`, `b` of it satisfy `b.PreviousHash == a.Hash` and `b.Position == a.Position + 1`
(Go's `int` addition, which is the exact sum whenever the number of blocks fits an
`int`). -/
theorem append_monotonicity (now : GoString) (evs : List (BookCheckout × GoString))
    (h0 : Heap) :
    ∃ (bc : Blockchain) (h : Heap) (bs : List Block),
      runChain now evs h0 = .ok (bc, h) ∧ h.view bc = bs.map some ∧
      bc.blocks.length = evs.length + 1 ∧ bs.length = evs.length + 1 ∧
      ∀ (i : Nat) (a b : Block), bs[i]? = some a → bs[i + 1]? = some b →
        b.PreviousHash = a.Hash ∧ b.Position = addInt a.Position 1 ∧
          ((evs.length : Int) + 1 < 2 ^ 63 → b.Position = a.Position + 1) := by
  obtain ⟨bc, h, hrun, hv⟩ := runChain_view now evs h0
  have hlen := chainValues_length now evs
  refine ⟨bc, h, chainValues now evs, hrun, hv, ?_, hlen, ?_⟩
  · have := congrArg List.length hv
    simp only [Heap.view, List.length_map] at this
    rw [this, hlen]
  · intro i a b ha hb
    obtain ⟨hl1, hl2⟩ := chainValues_linked now evs i a b ha hb
    refine ⟨hl1, hl2, ?_⟩
    intro hfit
    have hi : i + 1 < (chainValues now evs).length := get_lt (h := ⟨chainValues now evs⟩) hb
    rw [hlen] at hi
    have pa := chainValues_position now evs i a ha
    have pb := chainValues_position now evs (i + 1) b hb
    rw [wrapInt64_of_range (by omega) (by omega)] at pa pb
    rw [pa, pb]
    push_cast
    ring

/-- C2, at the failing input. A block at position 55296 receives its hash from
`generateHash`; the same block with the position changed to 55297 has the same
input of the digest (`string` of either position is the encoding of U+FFFD), and
`ValidateHash` accepts the stored hash for it. -/
theorem position_change_undetected :
    stringOfInt 55296 = [0xEF, 0xBF, 0xBD] ∧ stringOfInt 55297 = [0xEF, 0xBF, 0xBD] ∧
    ∃ hash : GoString,
      generateHash 0 ⟨[{ Position := 55296, TimeStamp := ascii "t" }]⟩ =
        .ok ⟨[{ Position := 55296, TimeStamp := ascii "t", Hash := hash }]⟩ ∧
      commitInput { Position := 55297, TimeStamp := ascii "t", Hash := hash } =
        commitInput { Position := 55296, TimeStamp := ascii "t", Hash := hash } ∧
      ValidateHash 0 hash ⟨[{ Position := 55297, TimeStamp := ascii "t", Hash := hash }]⟩ =
        .ok (true, ⟨[{ Position := 55297, TimeStamp := ascii "t", Hash := hash }]⟩) := by
  have h1 : stringOfInt 55296 = [0xEF, 0xBF, 0xBD] :=
    stringOfInt_invalid 55296 (by decide)
  have h2 : stringOfInt 55297 = [0xEF, 0xBF, 0xBD] :=
    stringOfInt_invalid 55297 (by decide)
  have hin : ∀ x : GoString,
      commitInput { Position := 55297, TimeStamp := ascii "t", Hash := x } =
        commitInput { Position := 55296, TimeStamp := ascii "t" } := by
    intro x
    simp only [commitInput, h1, h2]
  have hb : (⟨[{ Position := 55296, TimeStamp := ascii "t" }]⟩ : Heap).cells[0]? =
      some { Position := 55296, TimeStamp := ascii "t" } := rfl
  obtain ⟨hash0, h0⟩ : ∃ x, x = commitment ({ Position := 55296, TimeStamp := ascii "t" }) :=
    ⟨_, rfl⟩
  have hb2 : (⟨[{ Position := 55297, TimeStamp := ascii "t", Hash := hash0 }]⟩ : Heap).cells[0]? =
      some { Position := 55297, TimeStamp := ascii "t", Hash := hash0 } := rfl
  have hc : commitment { Position := 55297, TimeStamp := ascii "t", Hash := hash0 } = hash0 := by
    rw [h0]
    simp only [commitment, hin]
  refine ⟨h1, h2, hash0, ?_, ?_, ?_⟩
  · rw [h0]
    exact (generateHash_eq hb).trans rfl
  · simp only [commitInput, h1, h2]
  · rw [ValidateHash_eq _ hb2, hc]
    simp

/-- C3 (round trip of the commitment). For every block `prev` points to, every
payload and every clock reading, `CreateBlock` returns a block `c` for which
`c.ValidateHash(c.Hash)` is true right after the construction. -/
theorem commitment_round_trip (h : Heap) (prev : Ptr) (pb : Block) (P : BookCheckout)
    (now : GoString) (hp : h.cells[prev]? = some pb) :
    ∃ c h1 cb, CreateBlock prev P now h = .ok (c, h1) ∧ h1.cells[c]? = some cb ∧
      ValidateHash c cb.Hash h1 = .ok (true, h1) := by
  have hc : (h.cells ++ [newBlock pb P now])[h.cells.length]? = some (newBlock pb P now) := by
    simp
  refine ⟨_, _, newBlock pb P now, CreateBlock_eq P now hp, hc, ?_⟩
  rw [ValidateHash_eq (h := ⟨h.cells ++ [newBlock pb P now]⟩) _ hc]
  have hsame : ({ newBlock pb P now with Hash := commitment (newBlock pb P now) } : Block) =
      newBlock pb P now := rfl
  rw [hsame, set_same hc]
  simp [newBlock_commitment]

/-- The round trip at a concrete input: a block built on `demoTail` with the payload
`demoCheckout`. -/
theorem commitment_round_trip_witness :
    demoHeap.cells[0]? = some demoTail ∧
    ∃ c h1 cb, CreateBlock 0 demoCheckout (ascii "noon") demoHeap = .ok (c, h1) ∧
      h1.cells[c]? = some cb ∧ ValidateHash c cb.Hash h1 = .ok (true, h1) :=
  ⟨rfl, commitment_round_trip demoHeap 0 demoTail demoCheckout (ascii "noon") rfl⟩

/-- C4 (genesis initialisation). `NewBlockChain()` returns a chain of exactly one
block; its `PreviousHash` is the empty string and its payload has `IsGenesis` true
and `BookID`, `User`, `CheckoutDate` empty. -/
theorem genesis_initialization (now : GoString) (h0 : Heap) :
    ∃ bc h g gb, NewBlockChain now h0 = .ok (bc, h) ∧ bc.blocks = [g] ∧
      h.cells[g]? = some gb ∧ gb.PreviousHash = [] ∧
      gb.Data = { BookID := [], User := [], CheckoutDate := [], IsGenesis := true } := by
  refine ⟨_, _, h0.cells.length + 1, newBlock {} { IsGenesis := true } now,
    NewBlockChain_eq now h0, rfl, ?_, rfl, rfl⟩
  simp only [List.append_assoc, List.singleton_append]
  rw [List.getElem?_append_right (Nat.le_succ _)]
  simp

/-- C5, as stated, fails: the only block of the chain of `NewBlockChain()`, at
index 0, has `Position` 1. -/
theorem genesis_position_not_zero :
    ∃ bc h gb, runChain (ascii "2024-01-01 00:00:00 +0000 UTC") [] ⟨[]⟩ = .ok (bc, h) ∧
      h.view bc = [some gb] ∧ gb.Position = 1 ∧ gb.Position ≠ 0 := by
  refine ⟨⟨[1]⟩, ⟨[{}, newBlock {} { IsGenesis := true } (ascii "2024-01-01 00:00:00 +0000 UTC")]⟩,
    newBlock {} { IsGenesis := true } (ascii "2024-01-01 00:00:00 +0000 UTC"),
    ?_, rfl, by decide, by decide⟩
  simp only [runChain, bind, Except.bind, NewBlockChain_eq, addBlocks]
  rfl

/-- C5, amended. In every chain obtained from `NewBlockChain()` by `AddBlock` calls
the block at index `i` has `Position == i + 1` (as an `int`; exactly `i + 1` when
this fits): the genesis block has position 1, the first added block position 2. -/
theorem position_is_index_plus_one (now : GoString) (evs : List (BookCheckout × GoString))
    (h0 : Heap) :
    ∃ (bc : Blockchain) (h : Heap) (bs : List Block),
      runChain now evs h0 = .ok (bc, h) ∧ h.view bc = bs.map some ∧
      bs.length = evs.length + 1 ∧
      ∀ (i : Nat) (a : Block), bs[i]? = some a →
        a.Position = wrapInt64 ((i : Int) + 1) ∧
          ((i : Int) + 1 < 2 ^ 63 → a.Position = (i : Int) + 1) := by
  obtain ⟨bc, h, hrun, hv⟩ := runChain_view now evs h0
  refine ⟨bc, h, chainValues now evs, hrun, hv, chainValues_length now evs, ?_⟩
  intro i a ha
  have pa := chainValues_position now evs i a ha
  refine ⟨pa, ?_⟩
  intro hfit
  rw [pa, wrapInt64_of_range (by omega) hfit]

/-- C6 (effect of `AddBlock`). On a non-empty chain of blocks, `AddBlock` ends
normally; the candidate `CreateBlock` builds from the tail passes `validBlock`, the
chain becomes the old sequence followed by that one block, its length grows by one,
and every block stored before the call is unchanged. -/
theorem append_effect (h : Heap) (bc : Blockchain) (data : BookCheckout) (now : GoString)
    (hne : bc.blocks ≠ []) (hvalid : ∀ p ∈ bc.blocks, ∃ b, h.cells[p]? = some b) :
    ∃ (t : Ptr) (c : Ptr) (h1 : Heap) (bc2 : Blockchain),
      bc.blocks.getLast? = some t ∧
      CreateBlock t data now h = .ok (c, h1) ∧
      validBlock c t h1 = .ok (true, h1) ∧
      AddBlock bc data now h = .ok (bc2, h1) ∧
      bc2.blocks = bc.blocks ++ [c] ∧
      bc2.blocks.length = bc.blocks.length + 1 ∧
      h1.view bc2 = h.view bc ++ [h1.cells[c]?] ∧
      (∀ (p : Ptr) (b : Block), h.cells[p]? = some b → h1.cells[p]? = some b) := by
  obtain ⟨t, htl⟩ : ∃ t, bc.blocks.getLast? = some t := by
    cases hl : bc.blocks.getLast? with
    | none => exact absurd (List.getLast?_eq_none_iff.mp hl) hne
    | some t => exact ⟨t, rfl⟩
  have hq : bc.blocks[bc.blocks.length - 1]? = some t := by
    rw [← List.getLast?_eq_getElem?]
    exact htl
  obtain ⟨tb, ht⟩ := hvalid t (List.mem_of_getLast?_eq_some htl)
  have hlt : t < h.cells.length := get_lt ht
  have hc : (h.cells ++ [newBlock tb data now])[h.cells.length]? =
      some (newBlock tb data now) := by
    simp
  have hv := validBlock_eq (h := ⟨h.cells ++ [newBlock tb data now]⟩) (Nat.ne_of_gt hlt) hc
    (get_append_of_get _ ht)
  have hsame : ({ newBlock tb data now with Hash := commitment (newBlock tb data now) } : Block) =
      newBlock tb data now := rfl
  have hd : decide (tb.Hash = (newBlock tb data now).PreviousHash ∧
      commitment (newBlock tb data now) = (newBlock tb data now).Hash ∧
      addInt tb.Position 1 = (newBlock tb data now).Position) = true :=
    decide_eq_true ⟨rfl, rfl, rfl⟩
  rw [hsame, set_same hc, hd] at hv
  simp only [if_true, ite_self] at hv
  refine ⟨t, h.cells.length, ⟨h.cells ++ [newBlock tb data now]⟩,
    ⟨bc.blocks ++ [h.cells.length]⟩, htl, CreateBlock_eq data now ht, hv,
    AddBlock_eq data now hq ht, rfl, by simp, ?_, ?_⟩
  · simp only [Heap.view, List.map_append, List.map_cons, List.map_nil]
    congr 1
    apply List.map_congr_left
    intro p hp
    obtain ⟨b, hb⟩ := hvalid p hp
    rw [get_append_of_get _ hb, hb]
  · intro p b hb
    exact get_append_of_get _ hb

/-- The effect of `AddBlock` at a concrete input: the chain of the two blocks of
`demoHeap`. -/
theorem append_effect_witness :
    (⟨[0, 1]⟩ : Blockchain).blocks ≠ [] ∧
    (∀ p ∈ (⟨[0, 1]⟩ : Blockchain).blocks, ∃ b, demoHeap.cells[p]? = some b) ∧
    ∃ (t : Ptr) (c : Ptr) (h1 : Heap) (bc2 : Blockchain),
      (⟨[0, 1]⟩ : Blockchain).blocks.getLast? = some t ∧
      CreateBlock t demoCheckout (ascii "noon") demoHeap = .ok (c, h1) ∧
      validBlock c t h1 = .ok (true, h1) ∧
      AddBlock ⟨[0, 1]⟩ demoCheckout (ascii "noon") demoHeap = .ok (bc2, h1) ∧
      bc2.blocks = (⟨[0, 1]⟩ : Blockchain).blocks ++ [c] ∧
      bc2.blocks.length = (⟨[0, 1]⟩ : Blockchain).blocks.length + 1 ∧
      h1.view bc2 = demoHeap.view ⟨[0, 1]⟩ ++ [h1.cells[c]?] ∧
      (∀ (p : Ptr) (b : Block), demoHeap.cells[p]? = some b → h1.cells[p]? = some b) :=
  ⟨by decide, by simp [demoHeap],
    append_effect demoHeap ⟨[0, 1]⟩ demoCheckout (ascii "noon") (by decide) (by simp [demoHeap])⟩

/-- C7 (acceptance rule). For a candidate `c` and a tail `t` that are distinct
blocks, `validBlock(c, t)` returns true exactly when `c.PreviousHash == t.Hash`, the
hash recomputed from `c`'s position, time stamp, payload and previous hash equals
the `Hash` stored in `c` at the call, and `c.Position == t.Position + 1` (Go's
`int` addition, the exact sum when it stays in the range of `int`). A candidate whose `PreviousHash` differs from the tail's hash is rejected. The call
allocates nothing, changes no block other than `c`, and no chain changes length. -/
theorem acceptance_rule (h : Heap) (c t : Ptr) (cb tb : Block) (hne : c ≠ t)
    (hc : h.cells[c]? = some cb) (ht : h.cells[t]? = some tb) :
    ∃ (r : Bool) (h1 : Heap), validBlock c t h = .ok (r, h1) ∧
      (r = true ↔
        cb.PreviousHash = tb.Hash ∧
        hexEncodeToString (sha256 (stringOfInt cb.Position ++ cb.TimeStamp ++
          jsonObject cb.Data ++ cb.PreviousHash)) = cb.Hash ∧
        cb.Position = addInt tb.Position 1) ∧
      (-(2 ^ 63) ≤ tb.Position + 1 ∧ tb.Position + 1 < 2 ^ 63 →
        addInt tb.Position 1 = tb.Position + 1) ∧
      (cb.PreviousHash ≠ tb.Hash → r = false ∧ h1 = h) ∧
      h1.cells.length = h.cells.length ∧
      (∀ q : Ptr, q ≠ c → h1.cells[q]? = h.cells[q]?) ∧
      (∀ bc : Blockchain, (h1.view bc).length = (h.view bc).length) := by
  refine ⟨_, _, validBlock_eq hne hc ht, ?_, ?_, ?_, ?_, ?_, ?_⟩
  · rw [decide_eq_true_iff]
    constructor
    · rintro ⟨h1, h2, h3⟩
      exact ⟨h1.symm, h2, h3.symm⟩
    · rintro ⟨h1, h2, h3⟩
      exact ⟨h1.symm, h2, h3.symm⟩
  · rintro ⟨h1, h2⟩
    exact wrapInt64_of_range h1 h2
  · intro hd
    have hd2 : ¬ tb.Hash = cb.PreviousHash := fun e => hd e.symm
    simp [hd2]
  · by_cases h1 : tb.Hash = cb.PreviousHash <;> simp [h1]
  · intro q hq
    by_cases h1 : tb.Hash = cb.PreviousHash
    · simp only [h1, if_true]
      exact List.getElem?_set_ne (Ne.symm hq)
    · simp [h1]
  · intro bc
    simp [Heap.view]

/-- The acceptance rule at a concrete input: `demoCandidate` checked against
`demoTail`. -/
theorem acceptance_rule_witness :
    (1 : Ptr) ≠ 0 ∧ demoHeap.cells[1]? = some demoCandidate ∧
    demoHeap.cells[0]? = some demoTail ∧
    ∃ (r : Bool) (h1 : Heap), validBlock 1 0 demoHeap = .ok (r, h1) ∧
      (r = true ↔
        demoCandidate.PreviousHash = demoTail.Hash ∧
        hexEncodeToString (sha256 (stringOfInt demoCandidate.Position ++ demoCandidate.TimeStamp ++
          jsonObject demoCandidate.Data ++ demoCandidate.PreviousHash)) = demoCandidate.Hash ∧
        demoCandidate.Position = addInt demoTail.Position 1) ∧
      (-(2 ^ 63) ≤ demoTail.Position + 1 ∧ demoTail.Position + 1 < 2 ^ 63 →
        addInt demoTail.Position 1 = demoTail.Position + 1) ∧
      (demoCandidate.PreviousHash ≠ demoTail.Hash → r = false ∧ h1 = demoHeap) ∧
      h1.cells.length = demoHeap.cells.length ∧
      (∀ q : Ptr, q ≠ 1 → h1.cells[q]? = demoHeap.cells[q]?) ∧
      (∀ bc : Blockchain, (h1.view bc).length = (demoHeap.view bc).length) :=
  ⟨by decide, rfl, rfl,
    acceptance_rule demoHeap 1 0 demoCandidate demoTail (by decide) rfl rfl⟩

/-- C8, as stated, fails: `ValidateHash` called on a block whose stored `Hash` is
`abc` leaves a block with another `Hash`. -/
theorem validateHash_overwrites_hash :
    ∃ (r : Bool) (h1 : Heap) (b1 : Block),
      ValidateHash 0 (ascii "abc") ⟨[{ Position := 1, Hash := ascii "abc" }]⟩ = .ok (r, h1) ∧
      h1.cells[0]? = some b1 ∧ b1.Hash ≠ ascii "abc" ∧
      b1 ≠ { Position := 1, Hash := ascii "abc" } := by
  have hb : (⟨[{ Position := 1, Hash := ascii "abc" }]⟩ : Heap).cells[0]? =
      some { Position := 1, Hash := ascii "abc" } := rfl
  have hlen := commitment_length { Position := 1, Hash := ascii "abc" }
  have hH : commitment { Position := 1, Hash := ascii "abc" } ≠ ascii "abc" := by
    intro he
    rw [he] at hlen
    revert hlen
    decide
  refine ⟨_, _, { Position := 1, Hash := commitment { Position := 1, Hash := ascii "abc" } },
    ValidateHash_eq _ hb, rfl, hH, ?_⟩
  intro he
  exact hH (congrArg Block.Hash he)

/-- C8, amended. `b.ValidateHash(h)` ends normally, leaves `Position`, `Data`,
`TimeStamp` and `PreviousHash` of `b` as they were and sets `b.Hash` to the hash
recomputed from these four fields, so `b` is unchanged exactly when its stored
`Hash` was that hash already; no other block changes. -/
theorem validateHash_effect (h : Heap) (p : Ptr) (b : Block) (hash : GoString)
    (hb : h.cells[p]? = some b) :
    ∃ (r : Bool) (h1 : Heap) (b1 : Block), ValidateHash p hash h = .ok (r, h1) ∧
      h1.cells[p]? = some b1 ∧
      b1.Position = b.Position ∧ b1.Data = b.Data ∧ b1.TimeStamp = b.TimeStamp ∧
      b1.PreviousHash = b.PreviousHash ∧
      b1.Hash = hexEncodeToString (sha256 (stringOfInt b.Position ++ b.TimeStamp ++
        jsonObject b.Data ++ b.PreviousHash)) ∧
      (b1 = b ↔ b.Hash = hexEncodeToString (sha256 (stringOfInt b.Position ++ b.TimeStamp ++
        jsonObject b.Data ++ b.PreviousHash))) ∧
      h1.cells.length = h.cells.length ∧
      (∀ q : Ptr, q ≠ p → h1.cells[q]? = h.cells[q]?) := by
  refine ⟨_, _, { b with Hash := commitment b }, ValidateHash_eq hash hb,
    get_set_self _ hb, rfl, rfl, rfl, rfl, rfl, ?_, by simp, ?_⟩
  · constructor
    · intro he
      exact (congrArg Block.Hash he).symm
    · intro he
      cases b
      simp only [commitment, commitInput] at he ⊢
      simp only [Block.mk.injEq, true_and, and_true]
      exact he.symm
  · intro q hq
    exact List.getElem?_set_ne (Ne.symm hq)

/-- The effect of `ValidateHash` at a concrete input: `demoCandidate` and its stored
hash. -/
theorem validateHash_effect_witness :
    demoHeap.cells[1]? = some demoCandidate ∧
    ∃ (r : Bool) (h1 : Heap) (b1 : Block),
      ValidateHash 1 (ascii "c") demoHeap = .ok (r, h1) ∧
      h1.cells[1]? = some b1 ∧
      b1.Position = demoCandidate.Position ∧ b1.Data = demoCandidate.Data ∧
      b1.TimeStamp = demoCandidate.TimeStamp ∧
      b1.PreviousHash = demoCandidate.PreviousHash ∧
      b1.Hash = hexEncodeToString (sha256 (stringOfInt demoCandidate.Position ++
        demoCandidate.TimeStamp ++ jsonObject demoCandidate.Data ++ demoCandidate.PreviousHash)) ∧
      (b1 = demoCandidate ↔
        demoCandidate.Hash = hexEncodeToString (sha256 (stringOfInt demoCandidate.Position ++
          demoCandidate.TimeStamp ++ jsonObject demoCandidate.Data ++
          demoCandidate.PreviousHash))) ∧
      h1.cells.length = demoHeap.cells.length ∧
      (∀ q : Ptr, q ≠ 1 → h1.cells[q]? = demoHeap.cells[q]?) :=
  ⟨rfl, validateHash_effect demoHeap 1 demoCandidate (ascii "c") rfl⟩

/-- C9 (result of `ValidateHash`). For every block `b` and string `hash` the call
`b.ValidateHash(hash)` ends normally (the JSON serialisation of the payload
succeeds) and returns true exactly when `hash` is the lowercase hexadecimal SHA-256
digest of `string(b.Position) + b.TimeStamp + JSON(b.Data) + b.PreviousHash`; the
result is the same whatever `b.Hash` holds before the call. -/
theorem validateHash_result (h : Heap) (p : Ptr) (b : Block) (hash : GoString)
    (hb : h.cells[p]? = some b) :
    ∃ (r : Bool) (h1 : Heap), ValidateHash p hash h = .ok (r, h1) ∧
      jsonMarshal b.Data = .ok (jsonObject b.Data) ∧
      (r = true ↔ hash = hexEncodeToString (sha256 (stringOfInt b.Position ++ b.TimeStamp ++
        jsonObject b.Data ++ b.PreviousHash))) ∧
      (∀ stored : GoString, ∃ h2 : Heap,
        ValidateHash p hash ⟨h.cells.set p { b with Hash := stored }⟩ = .ok (r, h2)) := by
  refine ⟨_, _, ValidateHash_eq hash hb, rfl, ?_, ?_⟩
  · rw [decide_eq_true_iff]
    exact eq_comm
  · intro stored
    have hs := ValidateHash_eq (h := ⟨h.cells.set p { b with Hash := stored }⟩)
      (b := { b with Hash := stored }) hash (get_set_self { b with Hash := stored } hb)
    exact ⟨_, hs⟩

/-- The result of `ValidateHash` at a concrete input: `demoTail` and its stored hash. -/
theorem validateHash_result_witness :
    demoHeap.cells[0]? = some demoTail ∧
    ∃ (r : Bool) (h1 : Heap), ValidateHash 0 (ascii "g") demoHeap = .ok (r, h1) ∧
      jsonMarshal demoTail.Data = .ok (jsonObject demoTail.Data) ∧
      (r = true ↔ ascii "g" = hexEncodeToString (sha256 (stringOfInt demoTail.Position ++
        demoTail.TimeStamp ++ jsonObject demoTail.Data ++ demoTail.PreviousHash))) ∧
      (∀ stored : GoString, ∃ h2 : Heap,
        ValidateHash 0 (ascii "g") ⟨demoHeap.cells.set 0 { demoTail with Hash := stored }⟩ =
          .ok (r, h2)) :=
  ⟨rfl, validateHash_result demoHeap 0 demoTail (ascii "g") rfl⟩

/-- C10 (construction). For every block `prev` points to, every payload and every
clock reading, `CreateBlock` ends normally and returns a new block with
`Position == prev.Position + 1` (Go's `int` addition: the exact sum unless it
leaves the range of `int`), `PreviousHash == prev.Hash`, the clock reading as
`TimeStamp`, the payload as `Data`, and as `Hash` the hexadecimal SHA-256 digest of
`string(Position) + TimeStamp + JSON(Data) + PreviousHash` of these four fields; the
block `prev` and every other block allocated before are not modified. -/
theorem createBlock_fields (h : Heap) (prev : Ptr) (pb : Block) (data : BookCheckout)
    (now : GoString) (hp : h.cells[prev]? = some pb) :
    ∃ (c : Ptr) (h1 : Heap) (cb : Block), CreateBlock prev data now h = .ok (c, h1) ∧
      h1.cells[c]? = some cb ∧
      cb.Position = addInt pb.Position 1 ∧
      (-(2 ^ 63) ≤ pb.Position + 1 ∧ pb.Position + 1 < 2 ^ 63 → cb.Position = pb.Position + 1) ∧
      cb.PreviousHash = pb.Hash ∧ cb.TimeStamp = now ∧ cb.Data = data ∧
      cb.Hash = hexEncodeToString (sha256 (stringOfInt cb.Position ++ cb.TimeStamp ++
        jsonObject cb.Data ++ cb.PreviousHash)) ∧
      c ≠ prev ∧ h1.cells[prev]? = some pb ∧
      (∀ (q : Ptr) (b : Block), h.cells[q]? = some b → h1.cells[q]? = some b) := by
  have hc : (h.cells ++ [newBlock pb data now])[h.cells.length]? =
      some (newBlock pb data now) := by
    simp
  refine ⟨h.cells.length, ⟨h.cells ++ [newBlock pb data now]⟩, newBlock pb data now,
    CreateBlock_eq data now hp, hc, rfl, ?_, rfl, rfl, rfl, rfl, Nat.ne_of_gt (get_lt hp),
    get_append_of_get _ hp, ?_⟩
  · rintro ⟨h1, h2⟩
    show addInt pb.Position 1 = pb.Position + 1
    exact wrapInt64_of_range h1 h2
  · intro q b hq
    exact get_append_of_get _ hq

/-- The fields of a block built on `demoTail` with the payload `demoCheckout`. -/
theorem createBlock_fields_witness :
    demoHeap.cells[0]? = some demoTail ∧
    ∃ (c : Ptr) (h1 : Heap) (cb : Block),
      CreateBlock 0 demoCheckout (ascii "noon") demoHeap = .ok (c, h1) ∧
      h1.cells[c]? = some cb ∧
      cb.Position = addInt demoTail.Position 1 ∧
      (-(2 ^ 63) ≤ demoTail.Position + 1 ∧ demoTail.Position + 1 < 2 ^ 63 →
        cb.Position = demoTail.Position + 1) ∧
      cb.PreviousHash = demoTail.Hash ∧ cb.TimeStamp = ascii "noon" ∧ cb.Data = demoCheckout ∧
      cb.Hash = hexEncodeToString (sha256 (stringOfInt cb.Position ++ cb.TimeStamp ++
        jsonObject cb.Data ++ cb.PreviousHash)) ∧
      c ≠ 0 ∧ h1.cells[0]? = some demoTail ∧
      (∀ (q : Ptr) (b : Block), demoHeap.cells[q]? = some b → h1.cells[q]? = some b) :=
  ⟨rfl, createBlock_fields demoHeap 0 demoTail demoCheckout (ascii "noon") rfl⟩

/-! ## Lemmas: the ledger as a whole -/

theorem block_with_own_hash (b : Block) : ({ b with Hash := b.Hash } : Block) = b := by
  cases b
  rfl

theorem chainValues_hash (now : GoString) (evs : List (BookCheckout × GoString)) :
    ∀ (i : Nat) (a : Block), (chainValues now evs)[i]? = some a → commitment a = a.Hash := by
  refine extendChain_inv
    (fun bs => ∀ (i : Nat) (a : Block), bs[i]? = some a → commitment a = a.Hash) ?_ evs _
    (by simp) ?_
  · intro bs tb d t hP _ i a ha
    rcases get_concat ha with ⟨_, ha1⟩ | ⟨_, ha1⟩
    · exact hP i a ha1
    · subst ha1
      rfl
  · intro i a ha
    cases i with
    | zero =>
      simp at ha
      subst ha
      rfl
    | succ n => simp at ha

theorem chainValues_head (now : GoString) (evs : List (BookCheckout × GoString)) :
    (chainValues now evs)[0]? = some (newBlock {} { IsGenesis := true } now) := by
  refine extendChain_inv
    (fun bs => bs[0]? = some (newBlock {} { IsGenesis := true } now)) ?_ evs _ (by simp) ?_
  · intro bs tb d t hP _
    exact get_append_of_get _ hP
  · rfl

theorem view_get {h : Heap} {bc : Blockchain} {bs : List Block} {i : Nat} {p : Ptr}
    (hv : h.view bc = bs.map some) (hp : bc.blocks[i]? = some p) :
    ∃ b, h.cells[p]? = some b ∧ bs[i]? = some b := by
  have h1 : (h.view bc)[i]? = some h.cells[p]? := by
    simp only [Heap.view, List.getElem?_map, hp, Option.map_some']
  rw [hv, List.getElem?_map] at h1
  cases hb : bs[i]? with
  | none =>
    rw [hb] at h1
    cases h1
  | some b =>
    rw [hb] at h1
    simp only [Option.map_some', Option.some.injEq] at h1
    exact ⟨b, h1.symm, rfl⟩

/-! ## The properties of the specification, continued -/

/-- C11 (invariant I1 on the ledger). In every chain obtained from `NewBlockChain()`
by `AddBlock` calls, every stored block, the genesis block included, has as `Hash`
the hash recomputed from its `Position`, `TimeStamp`, `Data` and `PreviousHash`, and
`b.ValidateHash(b.Hash)` returns true (leaving the heap as it is). -/
theorem ledger_commitments (now : GoString) (evs : List (BookCheckout × GoString))
    (h0 : Heap) :
    ∃ (bc : Blockchain) (h : Heap) (bs : List Block),
      runChain now evs h0 = .ok (bc, h) ∧ h.view bc = bs.map some ∧
      bs.length = evs.length + 1 ∧
      ∀ (i : Nat) (p : Ptr), bc.blocks[i]? = some p →
        ∃ b : Block, h.cells[p]? = some b ∧ bs[i]? = some b ∧
          hexEncodeToString (sha256 (stringOfInt b.Position ++ b.TimeStamp ++
            jsonObject b.Data ++ b.PreviousHash)) = b.Hash ∧
          ValidateHash p b.Hash h = .ok (true, h) := by
  obtain ⟨bc, h, hrun, hv⟩ := runChain_view now evs h0
  refine ⟨bc, h, chainValues now evs, hrun, hv, chainValues_length now evs, ?_⟩
  intro i p hp
  obtain ⟨b, hb, hbs⟩ := view_get hv hp
  have hc : commitment b = b.Hash := chainValues_hash now evs i b hbs
  refine ⟨b, hb, hbs, hc, ?_⟩
  rw [ValidateHash_eq _ hb, hc, block_with_own_hash, set_same hb]
  simp

/-- C12, as stated, fails: built on a block at position 9223372036854775807, the
greatest `int`, the new block has position -9223372036854775808, which is negative
and not the sum. -/
theorem position_overflow :
    lastPositionBlock.Position = 9223372036854775807 ∧
    ∃ (c : Ptr) (h1 : Heap) (cb : Block),
      CreateBlock 0 demoCheckout (ascii "noon") ⟨[lastPositionBlock]⟩ = .ok (c, h1) ∧
      h1.cells[c]? = some cb ∧ cb.Position = -9223372036854775808 ∧
      cb.Position ≠ lastPositionBlock.Position + 1 ∧ cb.Position < 0 ∧
      cb.Position < lastPositionBlock.Position := by
  have hp : (⟨[lastPositionBlock]⟩ : Heap).cells[0]? = some lastPositionBlock := rfl
  refine ⟨rfl, 1, ⟨[lastPositionBlock, newBlock lastPositionBlock demoCheckout (ascii "noon")]⟩,
    newBlock lastPositionBlock demoCheckout (ascii "noon"), CreateBlock_eq _ _ hp, rfl,
    ?_, ?_, ?_, ?_⟩ <;> decide

/-- C12, amended. With `int` a 64-bit integer: built on a block `prev` with
`0 ≤ prev.Position < 2^63 - 1`, the new block has exactly the position
`prev.Position + 1`, which is non-negative and greater than `prev.Position`; built
on a block at position `2^63 - 1` it has the position `-2^63` (the sum wraps, the
code has no check). -/
theorem position_successor (h : Heap) (prev : Ptr) (pb : Block) (data : BookCheckout)
    (now : GoString) (hp : h.cells[prev]? = some pb) (hlo : 0 ≤ pb.Position)
    (hhi : pb.Position ≤ 2 ^ 63 - 1) :
    ∃ (c : Ptr) (h1 : Heap) (cb : Block), CreateBlock prev data now h = .ok (c, h1) ∧
      h1.cells[c]? = some cb ∧
      (pb.Position < 2 ^ 63 - 1 →
        cb.Position = pb.Position + 1 ∧ 0 ≤ cb.Position ∧ pb.Position < cb.Position) ∧
      (pb.Position = 2 ^ 63 - 1 → cb.Position = -(2 ^ 63)) := by
  have hc : (h.cells ++ [newBlock pb data now])[h.cells.length]? =
      some (newBlock pb data now) := by
    simp
  refine ⟨h.cells.length, ⟨h.cells ++ [newBlock pb data now]⟩, newBlock pb data now,
    CreateBlock_eq data now hp, hc, ?_, ?_⟩
  · intro hlt
    have he : (newBlock pb data now).Position = pb.Position + 1 := by
      show addInt pb.Position 1 = pb.Position + 1
      exact wrapInt64_of_range (by omega) (by omega)
    rw [he]
    omega
  · intro heq
    show addInt pb.Position 1 = -(2 ^ 63)
    simp only [addInt, wrapInt64]
    omega

/-- The successor position at a concrete input: a block built on `demoTail`. -/
theorem position_successor_witness :
    demoHeap.cells[0]? = some demoTail ∧ 0 ≤ demoTail.Position ∧
    demoTail.Position ≤ 2 ^ 63 - 1 ∧
    ∃ (c : Ptr) (h1 : Heap) (cb : Block),
      CreateBlock 0 demoCheckout (ascii "noon") demoHeap = .ok (c, h1) ∧
      h1.cells[c]? = some cb ∧
      (demoTail.Position < 2 ^ 63 - 1 →
        cb.Position = demoTail.Position + 1 ∧ 0 ≤ cb.Position ∧
          demoTail.Position < cb.Position) ∧
      (demoTail.Position = 2 ^ 63 - 1 → cb.Position = -(2 ^ 63)) :=
  ⟨rfl, by decide, by decide,
    position_successor demoHeap 0 demoTail demoCheckout (ascii "noon") rfl (by decide)
      (by decide)⟩

/-- C13 (determinism of the commitment). Two blocks that agree on `Position`,
`TimeStamp`, `Data` and `PreviousHash` hold the same `Hash` after `generateHash`,
whatever their `Hash` fields held before; and two `CreateBlock` calls, one after the
other, with the same `prev`, the same payload and the same clock reading return two
distinct blocks with the same `Hash`. -/
theorem commitment_deterministic (h k : Heap) (p q : Ptr) (a b : Block)
    (ha : h.cells[p]? = some a) (hb : k.cells[q]? = some b)
    (h1 : a.Position = b.Position) (h2 : a.TimeStamp = b.TimeStamp) (h3 : a.Data = b.Data)
    (h4 : a.PreviousHash = b.PreviousHash) (data : BookCheckout) (now : GoString) :
    (∃ (h' k' : Heap) (a' b' : Block), generateHash p h = .ok h' ∧ generateHash q k = .ok k' ∧
      h'.cells[p]? = some a' ∧ k'.cells[q]? = some b' ∧ a'.Hash = b'.Hash) ∧
    (∃ (c1 c2 : Ptr) (g1 g2 : Heap) (b1 b2 : Block),
      CreateBlock p data now h = .ok (c1, g1) ∧ CreateBlock p data now g1 = .ok (c2, g2) ∧
      c1 ≠ c2 ∧ g2.cells[c1]? = some b1 ∧ g2.cells[c2]? = some b2 ∧ b1.Hash = b2.Hash) := by
  constructor
  · refine ⟨_, _, { a with Hash := commitment a }, { b with Hash := commitment b },
      generateHash_eq ha, generateHash_eq hb, get_set_self _ ha, get_set_self _ hb, ?_⟩
    show commitment a = commitment b
    simp only [commitment, commitInput, h1, h2, h3, h4]
  · have ha1 : (h.cells ++ [newBlock a data now])[p]? = some a := get_append_of_get _ ha
    have hc1 : (h.cells ++ [newBlock a data now])[h.cells.length]? =
        some (newBlock a data now) := by
      simp
    have e2 := CreateBlock_eq (h := ⟨h.cells ++ [newBlock a data now]⟩) data now ha1
    refine ⟨h.cells.length, (h.cells ++ [newBlock a data now]).length,
      ⟨h.cells ++ [newBlock a data now]⟩,
      ⟨h.cells ++ [newBlock a data now] ++ [newBlock a data now]⟩,
      newBlock a data now, newBlock a data now, CreateBlock_eq data now ha, e2, ?_, ?_, ?_, rfl⟩
    · simp
    · exact get_append_of_get _ hc1
    · show (h.cells ++ [newBlock a data now] ++ [newBlock a data now])[
        (h.cells ++ [newBlock a data now]).length]? = some (newBlock a data now)
      rw [List.getElem?_append_right (Nat.le_refl _), Nat.sub_self]
      rfl

/-- The determinism at a concrete input: `demoTail` and a block with the same four
fields and another stored `Hash`. -/
theorem commitment_deterministic_witness :
    demoHeap.cells[0]? = some demoTail ∧
    (⟨[{ Position := 1, Hash := ascii "zz" }]⟩ : Heap).cells[0]? =
      some { Position := 1, Hash := ascii "zz" } ∧
    (∃ (h' k' : Heap) (a' b' : Block), generateHash 0 demoHeap = .ok h' ∧
      generateHash 0 ⟨[{ Position := 1, Hash := ascii "zz" }]⟩ = .ok k' ∧
      h'.cells[0]? = some a' ∧ k'.cells[0]? = some b' ∧ a'.Hash = b'.Hash) ∧
    (∃ (c1 c2 : Ptr) (g1 g2 : Heap) (b1 b2 : Block),
      CreateBlock 0 demoCheckout (ascii "noon") demoHeap = .ok (c1, g1) ∧
      CreateBlock 0 demoCheckout (ascii "noon") g1 = .ok (c2, g2) ∧
      c1 ≠ c2 ∧ g2.cells[c1]? = some b1 ∧ g2.cells[c2]? = some b2 ∧ b1.Hash = b2.Hash) :=
  ⟨rfl, rfl,
    commitment_deterministic demoHeap ⟨[{ Position := 1, Hash := ascii "zz" }]⟩ 0 0 demoTail
      { Position := 1, Hash := ascii "zz" } rfl rfl rfl rfl rfl rfl demoCheckout (ascii "noon")⟩

/-! ## Lemmas: a second validation, the shape of the hashes, the frame of a run -/

theorem validBlock_twice {h : Heap} {c t : Ptr} {cb tb : Block} (hne : c ≠ t)
    (hc : h.cells[c]? = some cb) (ht : h.cells[t]? = some tb)
    (hlink : tb.Hash = cb.PreviousHash) (hbad : commitment cb ≠ cb.Hash) :
    validBlock c t h = .ok (false, ⟨h.cells.set c { cb with Hash := commitment cb }⟩) ∧
    validBlock c t ⟨h.cells.set c { cb with Hash := commitment cb }⟩ =
      .ok (decide (addInt tb.Position 1 = cb.Position),
        ⟨h.cells.set c { cb with Hash := commitment cb }⟩) := by
  constructor
  · rw [validBlock_eq hne hc ht]
    simp [hlink, hbad]
  · have hc2 : (h.cells.set c { cb with Hash := commitment cb })[c]? =
        some { cb with Hash := commitment cb } := get_set_self _ hc
    have ht2 : (h.cells.set c { cb with Hash := commitment cb })[t]? = some tb := by
      rw [List.getElem?_set_ne hne]
      exact ht
    have hv := validBlock_eq (h := ⟨h.cells.set c { cb with Hash := commitment cb }⟩) hne hc2 ht2
    have hsame : ({ ({ cb with Hash := commitment cb } : Block) with
        Hash := commitment { cb with Hash := commitment cb } } : Block) =
        { cb with Hash := commitment cb } := rfl
    have hcm : commitment ({ cb with Hash := commitment cb } : Block) = commitment cb := rfl
    rw [hsame, set_same hc2] at hv
    rw [hv]
    simp only [hlink, hcm, true_and, if_true]

theorem hexDigit_lower (n : Nat) (hn : n < 16) : isLowerHex (hexDigit n) = true := by
  unfold hexDigit isLowerHex
  by_cases h : n < 10
  · simp only [h, if_true, byte_toNat_ofNat, Bool.or_eq_true, Bool.and_eq_true,
      decide_eq_true_eq]
    omega
  · simp only [h, if_false, byte_toNat_ofNat, Bool.or_eq_true, Bool.and_eq_true,
      decide_eq_true_eq]
    omega

theorem hexEncodeToString_lower (l : List UInt8) :
    ∀ c ∈ hexEncodeToString l, isLowerHex c = true := by
  induction l with
  | nil =>
    intro c hc
    simp [hexEncodeToString] at hc
  | cons b bs ih =>
    intro c hc
    have hb := UInt8.toNat_lt b
    simp only [hexEncodeToString, List.mem_cons] at hc
    rcases hc with rfl | rfl | hc
    · exact hexDigit_lower _ (by omega)
    · exact hexDigit_lower _ (by omega)
    · exact ih c hc

theorem chainValues_previousHash (now : GoString) (evs : List (BookCheckout × GoString)) :
    ∀ (i : Nat) (a : Block), (chainValues now evs)[i]? = some a →
      (a.PreviousHash = [] ↔ i = 0) := by
  intro i a ha
  cases i with
  | zero =>
    rw [chainValues_head] at ha
    cases ha
    exact ⟨fun _ => rfl, fun _ => rfl⟩
  | succ j =>
    have hj1 : j + 1 < (chainValues now evs).length :=
      get_lt (h := ⟨chainValues now evs⟩) ha
    have hj : j < (chainValues now evs).length := by omega
    have hprev : (chainValues now evs)[j]? = some ((chainValues now evs)[j]) :=
      List.getElem?_eq_getElem hj
    have hl := chainValues_linked now evs j _ a hprev ha
    have hh := chainValues_hash now evs j _ hprev
    have hlen := commitment_length ((chainValues now evs)[j])
    constructor
    · intro he
      have hnil : commitment ((chainValues now evs)[j]) = [] := by
        rw [hh, ← hl.1, he]
      rw [hnil] at hlen
      simp at hlen
    · intro he
      omega

theorem addBlocks_frame (evs : List (BookCheckout × GoString)) :
    ∀ (bc : Blockchain) (h : Heap) (bs : List Block), bs ≠ [] → h.view bc = bs.map some →
      ∃ bc1 h1, addBlocks evs (bc, h) = .ok (bc1, h1) ∧
        h1.view bc1 = (extendChain bs evs).map some ∧
        bc.blocks <+: bc1.blocks ∧ h.cells <+: h1.cells := by
  induction evs with
  | nil =>
    intro bc h bs _ hv
    exact ⟨bc, h, rfl, hv, List.prefix_refl _, List.prefix_refl _⟩
  | cons ev rest ih =>
    intro bc h bs hne hv
    obtain ⟨tb, htb⟩ : ∃ tb, bs.getLast? = some tb := by
      cases hl : bs.getLast? with
      | none => exact absurd (List.getLast?_eq_none_iff.mp hl) hne
      | some tb => exact ⟨tb, rfl⟩
    obtain ⟨t, hq, ht⟩ := view_last hv htb
    have hD : bs.getLastD {} = tb := by
      rw [List.getLastD_eq_getLast?, htb]
      rfl
    obtain ⟨bc1, h1, hrun, hv1, hp1, hp2⟩ := ih ⟨bc.blocks ++ [h.cells.length]⟩
      ⟨h.cells ++ [newBlock tb ev.1 ev.2]⟩ (bs ++ [newBlock tb ev.1 ev.2]) (by simp)
      (view_append _ hv)
    refine ⟨bc1, h1, ?_, ?_, (List.prefix_append _ _).trans hp1,
      (List.prefix_append _ _).trans hp2⟩
    · simp only [addBlocks, bind, Except.bind, AddBlock_eq ev.1 ev.2 hq ht]
      exact hrun
    · rw [hv1]
      simp only [extendChain, hD]

theorem tampered_hash_mismatch : commitment tamperedCandidate ≠ tamperedCandidate.Hash := by
  intro he
  have hlen := commitment_length tamperedCandidate
  rw [he] at hlen
  revert hlen
  decide

/-! ## The properties of the specification, concluded -/

/-- C15, as stated, fails: `tamperedCandidate` is linked to `demoTail` and stands at
the next position, but its stored `Hash` is not its commitment; the first
`validBlock` call rejects it for that reason, the second call accepts it. -/
theorem rejection_not_final :
    tamperedCandidate.PreviousHash = demoTail.Hash ∧
    tamperedCandidate.Position = addInt demoTail.Position 1 ∧
    hexEncodeToString (sha256 (stringOfInt tamperedCandidate.Position ++
      tamperedCandidate.TimeStamp ++ jsonObject tamperedCandidate.Data ++
      tamperedCandidate.PreviousHash)) ≠ tamperedCandidate.Hash ∧
    ∃ h1 : Heap, validBlock 1 0 tamperedHeap = .ok (false, h1) ∧
      validBlock 1 0 h1 = .ok (true, h1) := by
  have hne : (1 : Ptr) ≠ 0 := by decide
  have hc : tamperedHeap.cells[1]? = some tamperedCandidate := rfl
  have ht : tamperedHeap.cells[0]? = some demoTail := rfl
  obtain ⟨e1, e2⟩ := validBlock_twice hne hc ht rfl tampered_hash_mismatch
  refine ⟨rfl, by decide, tampered_hash_mismatch, _, e1, ?_⟩
  rw [e2]
  have hd : decide (addInt demoTail.Position 1 = tamperedCandidate.Position) = true := by
    decide
  rw [hd]

/-- C15, amended. When `validBlock(c, t)` returns false because the stored `Hash` of
`c` is not its recomputed commitment (the link to `t` being right), the call has
stored the recomputed commitment in `c.Hash` and changed nothing else; a second call
on the same candidate and tail then returns true exactly when
`c.Position == t.Position + 1`, and changes nothing. -/
theorem rejection_repairs_hash (h : Heap) (c t : Ptr) (cb tb : Block) (hne : c ≠ t)
    (hc : h.cells[c]? = some cb) (ht : h.cells[t]? = some tb)
    (hlink : cb.PreviousHash = tb.Hash)
    (hbad : hexEncodeToString (sha256 (stringOfInt cb.Position ++ cb.TimeStamp ++
      jsonObject cb.Data ++ cb.PreviousHash)) ≠ cb.Hash) :
    ∃ (h1 : Heap) (cb1 : Block) (r : Bool),
      validBlock c t h = .ok (false, h1) ∧
      h1.cells[c]? = some cb1 ∧
      cb1.Hash = hexEncodeToString (sha256 (stringOfInt cb.Position ++ cb.TimeStamp ++
        jsonObject cb.Data ++ cb.PreviousHash)) ∧
      cb1.Position = cb.Position ∧ cb1.Data = cb.Data ∧ cb1.TimeStamp = cb.TimeStamp ∧
      cb1.PreviousHash = cb.PreviousHash ∧
      (∀ q : Ptr, q ≠ c → h1.cells[q]? = h.cells[q]?) ∧
      validBlock c t h1 = .ok (r, h1) ∧
      (r = true ↔ cb.Position = addInt tb.Position 1) := by
  obtain ⟨e1, e2⟩ := validBlock_twice hne hc ht hlink.symm hbad
  refine ⟨_, { cb with Hash := commitment cb }, _, e1, get_set_self _ hc, rfl, rfl, rfl, rfl,
    rfl, ?_, e2, ?_⟩
  · intro q hq
    exact List.getElem?_set_ne (Ne.symm hq)
  · rw [decide_eq_true_iff]
    exact eq_comm

/-- The repeated validation at a concrete input: `tamperedCandidate` checked twice
against `demoTail`. -/
theorem rejection_repairs_hash_witness :
    (1 : Ptr) ≠ 0 ∧ tamperedHeap.cells[1]? = some tamperedCandidate ∧
    tamperedHeap.cells[0]? = some demoTail ∧
    tamperedCandidate.PreviousHash = demoTail.Hash ∧
    hexEncodeToString (sha256 (stringOfInt tamperedCandidate.Position ++
      tamperedCandidate.TimeStamp ++ jsonObject tamperedCandidate.Data ++
      tamperedCandidate.PreviousHash)) ≠ tamperedCandidate.Hash ∧
    ∃ (h1 : Heap) (cb1 : Block) (r : Bool),
      validBlock 1 0 tamperedHeap = .ok (false, h1) ∧
      h1.cells[1]? = some cb1 ∧
      cb1.Hash = hexEncodeToString (sha256 (stringOfInt tamperedCandidate.Position ++
        tamperedCandidate.TimeStamp ++ jsonObject tamperedCandidate.Data ++
        tamperedCandidate.PreviousHash)) ∧
      cb1.Position = tamperedCandidate.Position ∧ cb1.Data = tamperedCandidate.Data ∧
      cb1.TimeStamp = tamperedCandidate.TimeStamp ∧
      cb1.PreviousHash = tamperedCandidate.PreviousHash ∧
      (∀ q : Ptr, q ≠ 1 → h1.cells[q]? = tamperedHeap.cells[q]?) ∧
      validBlock 1 0 h1 = .ok (r, h1) ∧
      (r = true ↔ tamperedCandidate.Position = addInt demoTail.Position 1) :=
  ⟨by decide, rfl, rfl, rfl, tampered_hash_mismatch,
    rejection_repairs_hash tamperedHeap 1 0 tamperedCandidate demoTail (by decide) rfl rfl rfl
      tampered_hash_mismatch⟩

/-- C16 (hash shape and empty predecessor). In every chain obtained from
`NewBlockChain()` by `AddBlock` calls, the `Hash` of every block is a string of
exactly 64 characters, each one of `0123456789abcdef`, and the `PreviousHash` of a
block is the empty string exactly when the block is at index 0. -/
theorem hash_shape (now : GoString) (evs : List (BookCheckout × GoString)) (h0 : Heap) :
    ∃ (bc : Blockchain) (h : Heap) (bs : List Block),
      runChain now evs h0 = .ok (bc, h) ∧ h.view bc = bs.map some ∧
      bs.length = evs.length + 1 ∧
      ∀ (i : Nat) (b : Block), bs[i]? = some b →
        b.Hash.length = 64 ∧ (∀ c ∈ b.Hash, isLowerHex c = true) ∧
        b.Hash = hexEncodeToString (sha256 (stringOfInt b.Position ++ b.TimeStamp ++
          jsonObject b.Data ++ b.PreviousHash)) ∧
        (sha256 (stringOfInt b.Position ++ b.TimeStamp ++ jsonObject b.Data ++
          b.PreviousHash)).length = 32 ∧
        (b.PreviousHash = [] ↔ i = 0) := by
  obtain ⟨bc, h, hrun, hv⟩ := runChain_view now evs h0
  refine ⟨bc, h, chainValues now evs, hrun, hv, chainValues_length now evs, ?_⟩
  intro i b hb
  have hc : commitment b = b.Hash := chainValues_hash now evs i b hb
  refine ⟨?_, ?_, hc.symm, sha256_length _, chainValues_previousHash now evs i b hb⟩
  · rw [← hc]
    exact commitment_length b
  · rw [← hc]
    exact hexEncodeToString_lower _

/-- C17 (tail access is safe). Every chain obtained from `NewBlockChain()` by
`AddBlock` calls is non-empty and its last entry points to a block, so a further
`AddBlock` call, with any payload and clock reading, ends normally; the chain is
never shorter than before, and its entry at index 0 stays the pointer
`NewBlockChain()` stored, pointing to the same unchanged genesis block. -/
theorem tail_access_safe (now : GoString) (evs : List (BookCheckout × GoString))
    (h0 : Heap) :
    ∃ (bc0 bc : Blockchain) (h00 h : Heap) (g : Ptr) (gb : Block),
      NewBlockChain now h0 = .ok (bc0, h00) ∧ bc0.blocks = [g] ∧ h00.cells[g]? = some gb ∧
      runChain now evs h0 = .ok (bc, h) ∧
      bc.blocks ≠ [] ∧ bc.blocks.length = evs.length + 1 ∧
      bc.blocks.length - 1 < bc.blocks.length ∧
      (∃ (t : Ptr) (tb : Block),
        bc.blocks[bc.blocks.length - 1]? = some t ∧ h.cells[t]? = some tb) ∧
      bc0.blocks.length ≤ bc.blocks.length ∧
      bc.blocks[0]? = some g ∧ h.cells[g]? = some gb ∧
      ∀ (data : BookCheckout) (now2 : GoString),
        ∃ (bc2 : Blockchain) (h2 : Heap), AddBlock bc data now2 h = .ok (bc2, h2) ∧
          bc.blocks.length ≤ bc2.blocks.length ∧
          bc2.blocks[0]? = some g ∧ h2.cells[g]? = some gb := by
  have hg : (h0.cells ++ [({} : Block)] ++ [newBlock {} { IsGenesis := true } now])[
      h0.cells.length + 1]? = some (newBlock {} { IsGenesis := true } now) := by
    simp only [List.append_assoc, List.singleton_append]
    rw [List.getElem?_append_right (Nat.le_succ _)]
    simp
  have hv0 : (⟨h0.cells ++ [({} : Block)] ++ [newBlock {} { IsGenesis := true } now]⟩ :
      Heap).view ⟨[h0.cells.length + 1]⟩ = [newBlock {} { IsGenesis := true } now].map some := by
    simp only [Heap.view, List.map_cons, List.map_nil, hg]
  obtain ⟨bc, h, hrun, hv, hp1, hp2⟩ := addBlocks_frame evs _ _ _ (by simp) hv0
  have hlen : bc.blocks.length = evs.length + 1 := by
    have e := congrArg List.length hv
    simp only [Heap.view, List.length_map, extendChain_length, List.length_singleton] at e
    omega
  have hne : bc.blocks ≠ [] := by
    intro he
    rw [he] at hlen
    simp at hlen
  have hcv : extendChain [newBlock {} { IsGenesis := true } now] evs ≠ [] := by
    intro he
    have e := congrArg List.length he
    simp only [extendChain_length, List.length_singleton, List.length_nil] at e
    omega
  obtain ⟨tb, htb⟩ : ∃ tb,
      (extendChain [newBlock {} { IsGenesis := true } now] evs).getLast? = some tb := by
    cases hl : (extendChain [newBlock {} { IsGenesis := true } now] evs).getLast? with
    | none => exact absurd (List.getLast?_eq_none_iff.mp hl) hcv
    | some tb => exact ⟨tb, rfl⟩
  obtain ⟨t, hq, ht⟩ := view_last hv htb
  obtain ⟨bx, hbx⟩ := hp1
  obtain ⟨cx, hcx⟩ := hp2
  have hg0 : bc.blocks[0]? = some (h0.cells.length + 1) := by
    rw [← hbx]
    simp
  have hgb : h.cells[h0.cells.length + 1]? = some (newBlock {} { IsGenesis := true } now) := by
    rw [← hcx]
    rw [List.getElem?_append_left (get_lt (h := ⟨_⟩) hg)]
    exact hg
  refine ⟨⟨[h0.cells.length + 1]⟩, bc, _, h, h0.cells.length + 1,
    newBlock {} { IsGenesis := true } now, NewBlockChain_eq now h0, rfl, hg, ?_, hne, hlen,
    by omega, ⟨t, tb, hq, ht⟩, ?_, hg0, hgb, ?_⟩
  · simp only [runChain, bind, Except.bind, NewBlockChain_eq]
    exact hrun
  · show 1 ≤ bc.blocks.length
    omega
  · intro data now2
    refine ⟨_, _, AddBlock_eq data now2 hq ht, by simp, ?_, get_append_of_get _ hgb⟩
    show (bc.blocks ++ [h.cells.length])[0]? = some (h0.cells.length + 1)
    rw [List.getElem?_append_left (by omega)]
    exact hg0

/-! ## Lemmas: calls that overlap -/

theorem AddBlock_split (bc : Blockchain) (data : BookCheckout) (now : GoString) (h : Heap) :
    AddBlock bc data now h =
      (AddBlock_prepare bc data now h).bind (fun r => .ok (AddBlock_commit bc r.1, r.2)) := by
  unfold AddBlock AddBlock_prepare
  cases bc.blocks[bc.blocks.length - 1]? with
  | none => rfl
  | some prevBlock =>
    simp only [bind, Except.bind, pure, Except.pure]
    cases CreateBlock prevBlock data now h with
    | error e => rfl
    | ok c =>
      simp only []
      cases validBlock c.1 prevBlock c.2 with
      | error e => rfl
      | ok r =>
        cases hr : r.1 <;> simp [AddBlock_commit, hr]

theorem AddBlock_prepare_eq {h : Heap} {bc : Blockchain} {t : Ptr} {tb : Block}
    (d : BookCheckout) (now : GoString) (hq : bc.blocks[bc.blocks.length - 1]? = some t)
    (ht : h.cells[t]? = some tb) :
    AddBlock_prepare bc d now h =
      .ok ((h.cells.length, true), ⟨h.cells ++ [newBlock tb d now]⟩) := by
  have hlt : t < h.cells.length := get_lt ht
  have hne : h.cells.length ≠ t := Nat.ne_of_gt hlt
  have hc : (h.cells ++ [newBlock tb d now])[h.cells.length]? = some (newBlock tb d now) := by
    simp
  have ht2 : (h.cells ++ [newBlock tb d now])[t]? = some tb := get_append_of_get _ ht
  have hv := validBlock_eq (h := ⟨h.cells ++ [newBlock tb d now]⟩) hne hc ht2
  have hsame : ({ newBlock tb d now with Hash := commitment (newBlock tb d now) } : Block) =
      newBlock tb d now := rfl
  rw [hsame, set_same hc] at hv
  have hd : decide (tb.Hash = (newBlock tb d now).PreviousHash ∧
      commitment (newBlock tb d now) = (newBlock tb d now).Hash ∧
      addInt tb.Position 1 = (newBlock tb d now).Position) = true :=
    decide_eq_true ⟨rfl, rfl, rfl⟩
  rw [hd] at hv
  simp only [AddBlock_prepare, hq, bind, Except.bind, CreateBlock_eq d now ht, hv, pure,
    Except.pure, ite_self]

theorem AddBlock_overlapped_eq {h : Heap} {bc : Blockchain} {t : Ptr} {tb : Block}
    (dA : BookCheckout) (nA : GoString) (dB : BookCheckout) (nB : GoString)
    (hq : bc.blocks[bc.blocks.length - 1]? = some t) (ht : h.cells[t]? = some tb) :
    AddBlock_overlapped bc dA nA dB nB h =
      .ok (⟨bc.blocks ++ [h.cells.length] ++ [h.cells.length + 1]⟩,
        ⟨h.cells ++ [newBlock tb dA nA] ++ [newBlock tb dB nB]⟩) := by
  have ht2 : (h.cells ++ [newBlock tb dA nA])[t]? = some tb := get_append_of_get _ ht
  have e2 := AddBlock_prepare_eq (h := ⟨h.cells ++ [newBlock tb dA nA]⟩) dB nB hq ht2
  simp only [List.length_append, List.length_singleton] at e2
  simp only [AddBlock_overlapped, bind, Except.bind, AddBlock_prepare_eq dA nA hq ht, e2, pure,
    Except.pure, AddBlock_commit, if_true]

theorem overlapped_blocks (l : List Block) (x y : Block) :
    (l ++ [x] ++ [y])[l.length]? = some x ∧ (l ++ [x] ++ [y])[l.length + 1]? = some y := by
  constructor
  · rw [List.append_assoc, List.getElem?_append_right (Nat.le_refl _), Nat.sub_self]
    rfl
  · rw [List.append_assoc, List.getElem?_append_right (Nat.le_succ _)]
    have e : l.length + 1 - l.length = 1 := by omega
    rw [e]
    rfl

/-! ## The properties of the specification: concurrent calls -/

/-- C14, as stated, fails. On the chain of `NewBlockChain()`, two `AddBlock` calls
that both run lines 92-96 before either runs line 97 both return with their block
appended: the chain then holds three blocks, and the two new ones, distinct blocks at
distinct addresses, both have `Position` 2 and the hash of the genesis block as
`PreviousHash`. -/
theorem race_duplicate_positions :
    ∃ (bc0 bc : Blockchain) (h0 h : Heap) (g a b : Block),
      NewBlockChain (ascii "t0") ⟨[]⟩ = .ok (bc0, h0) ∧
      AddBlock_overlapped bc0 demoCheckout (ascii "t1")
        { BookID := ascii "b2", User := ascii "bob" } (ascii "t2") h0 = .ok (bc, h) ∧
      bc.blocks = [1, 2, 3] ∧ h.view bc = [some g, some a, some b] ∧
      a ≠ b ∧ a.Position = 2 ∧ b.Position = 2 ∧
      a.PreviousHash = g.Hash ∧ b.PreviousHash = g.Hash := by
  have hq : (⟨[1]⟩ : Blockchain).blocks[(⟨[1]⟩ : Blockchain).blocks.length - 1]? = some 1 := rfl
  have ht : (⟨[{}, newBlock {} { IsGenesis := true } (ascii "t0")]⟩ : Heap).cells[1]? =
      some (newBlock {} { IsGenesis := true } (ascii "t0")) := rfl
  refine ⟨⟨[1]⟩, ⟨[1, 2, 3]⟩, ⟨[{}, newBlock {} { IsGenesis := true } (ascii "t0")]⟩, _,
    newBlock {} { IsGenesis := true } (ascii "t0"),
    newBlock (newBlock {} { IsGenesis := true } (ascii "t0")) demoCheckout (ascii "t1"),
    newBlock (newBlock {} { IsGenesis := true } (ascii "t0"))
      { BookID := ascii "b2", User := ascii "bob" } (ascii "t2"),
    NewBlockChain_eq _ _, AddBlock_overlapped_eq _ _ _ _ hq ht, rfl, rfl, ?_, by decide,
    by decide, rfl, rfl⟩
  intro he
  have e := congrArg Block.TimeStamp he
  revert e
  decide

/-- C14, amended. `AddBlock` is lines 92-96 followed by line 97. When the calls do
not overlap, in every chain obtained from `NewBlockChain()` the positions of
consecutive blocks differ by one and (for a chain of fewer than `2^63` blocks) no two
blocks have the same `Position`. When two calls overlap, both running lines 92-96
before either runs line 97, both return with their block appended, and the two new
blocks have the same `Position`, one more than the tail's, and the tail's hash as
`PreviousHash`. -/
theorem serial_positions_overlap_duplicates (now : GoString)
    (evs : List (BookCheckout × GoString)) (h0 : Heap) (dataA : BookCheckout)
    (nowA : GoString) (dataB : BookCheckout) (nowB : GoString) :
    ∃ (bc : Blockchain) (h : Heap) (bs : List Block),
      runChain now evs h0 = .ok (bc, h) ∧ h.view bc = bs.map some ∧
      bs.length = evs.length + 1 ∧
      (∀ (i : Nat) (a b : Block), bs[i]? = some a → bs[i + 1]? = some b →
        b.Position = addInt a.Position 1 ∧
          ((evs.length : Int) + 1 < 2 ^ 63 → b.Position = a.Position + 1)) ∧
      (∀ (i j : Nat) (a b : Block), bs[i]? = some a → bs[j]? = some b →
        (evs.length : Int) + 1 < 2 ^ 63 → a.Position = b.Position → i = j) ∧
      AddBlock bc dataA nowA h =
        (AddBlock_prepare bc dataA nowA h).bind
          (fun r => .ok (AddBlock_commit bc r.1, r.2)) ∧
      ∃ (tb : Block) (bc2 : Blockchain) (h2 : Heap) (cA cB : Ptr) (a b : Block),
        bs.getLast? = some tb ∧
        AddBlock_overlapped bc dataA nowA dataB nowB h = .ok (bc2, h2) ∧
        bc2.blocks = bc.blocks ++ [cA, cB] ∧ cA ≠ cB ∧
        h2.cells[cA]? = some a ∧ h2.cells[cB]? = some b ∧
        h2.view bc2 = bs.map some ++ [some a, some b] ∧
        a.Position = addInt tb.Position 1 ∧ b.Position = addInt tb.Position 1 ∧
        a.PreviousHash = tb.Hash ∧ b.PreviousHash = tb.Hash := by
  obtain ⟨bc, h, hrun, hv⟩ := runChain_view now evs h0
  have hlen := chainValues_length now evs
  refine ⟨bc, h, chainValues now evs, hrun, hv, hlen, ?_, ?_, AddBlock_split _ _ _ _, ?_⟩
  · intro i a b ha hb
    obtain ⟨_, hl2⟩ := chainValues_linked now evs i a b ha hb
    refine ⟨hl2, ?_⟩
    intro hfit
    have hi : i + 1 < (chainValues now evs).length := get_lt (h := ⟨chainValues now evs⟩) hb
    rw [hlen] at hi
    have pa := chainValues_position now evs i a ha
    have pb := chainValues_position now evs (i + 1) b hb
    rw [wrapInt64_of_range (by omega) (by omega)] at pa pb
    rw [pa, pb]
    push_cast
    ring
  · intro i j a b ha hb hfit he
    have hi : i < (chainValues now evs).length := get_lt (h := ⟨chainValues now evs⟩) ha
    have hj : j < (chainValues now evs).length := get_lt (h := ⟨chainValues now evs⟩) hb
    rw [hlen] at hi hj
    have pa := chainValues_position now evs i a ha
    have pb := chainValues_position now evs j b hb
    rw [wrapInt64_of_range (by omega) (by omega)] at pa pb
    rw [pa, pb] at he
    omega
  · have hne : chainValues now evs ≠ [] := by
      intro he
      rw [he] at hlen
      simp at hlen
    obtain ⟨tb, htb⟩ : ∃ tb, (chainValues now evs).getLast? = some tb := by
      cases hl : (chainValues now evs).getLast? with
      | none => exact absurd (List.getLast?_eq_none_iff.mp hl) hne
      | some tb => exact ⟨tb, rfl⟩
    obtain ⟨t, hq, ht⟩ := view_last hv htb
    obtain ⟨hA, hB⟩ := overlapped_blocks h.cells (newBlock tb dataA nowA)
      (newBlock tb dataB nowB)
    have hv1 := view_append (newBlock tb dataA nowA) hv
    have hv2 := view_append (newBlock tb dataB nowB) hv1
    simp only [List.length_append, List.length_singleton] at hv2
    refine ⟨tb, _, _, h.cells.length, h.cells.length + 1, newBlock tb dataA nowA,
      newBlock tb dataB nowB, htb, AddBlock_overlapped_eq dataA nowA dataB nowB hq ht, ?_,
      Nat.ne_of_lt (Nat.lt_succ_self _), hA, hB, ?_, rfl, rfl, rfl, rfl⟩
    · simp
    · rw [hv2]
      simp

end GoChain
